import Mathlib

/-!
Verification of the background repository-synchronization pipeline of the
ai-git-analyzer backend against its natural-language specification.

The Python source is shallowly embedded: each SQLAlchemy model row becomes a
Lean structure, each task body becomes a pure function threading explicit
state.  The Celery session is created with `autoflush=False` and tasks commit
explicitly, so queries issued during a task see only rows that were committed
(or explicitly flushed) — the embeddings below make that visibility explicit.
-/

namespace GitAnalyzer

/-- A row of the `repositories` table (src/backend/app/models/repository.py),
restricted to the sync-relevant columns used by the background tasks. -/
structure Repository where
  id : Nat
  name : String
  full_name : String
  url : String
  clone_url : String
  external_id : String
  description : Option String
  default_branch : String
  is_private : Bool
  owner_id : Nat
  sync_status : String
  sync_error : Option String
  last_synced_at : Option Nat
  deriving Repr, DecidableEq

/-- The `enter syncing` step of `sync_repository`
(src/backend/app/background/tasks.py lines 35-37): the repository's
`sync_status` is assigned the string "syncing" and the change is committed.
No other column is written by this step. -/
def enterSyncing (r : Repository) : Repository :=
  { r with sync_status := "syncing" }

/-- Success epilogue of `sync_repository` (lines 47-50): status `completed`
and `last_synced_at` stamped with the current time (passed in explicitly). -/
def syncCompleted (now : Nat) (r : Repository) : Repository :=
  { r with sync_status := "completed", last_synced_at := some now }

/-- Failure handler of `sync_repository` (lines 58-63): status `failed` and
the error message recorded on the repository row. -/
def syncFailed (msg : String) (r : Repository) : Repository :=
  { r with sync_status := "failed", sync_error := some msg }

/-- One full run of the `sync_repository` state machine around a given
ingestion outcome: enter `syncing`, then either the success epilogue or the
failure handler. -/
def syncRepositoryRun (now : Nat) (outcome : Except String Unit) (r : Repository) : Repository :=
  match outcome with
  | .ok _ => syncCompleted now (enterSyncing r)
  | .error e => syncFailed e (enterSyncing r)

section Pagination

variable {α : Type}

/--
The pagination loop shared by `GitHubClient.get_commits` (lines 42-62),
`GitHubClient.get_user_repositories` (lines 78-98) and
`GitHubClient.get_organization_repositories` of
src/backend/app/repositories/github.py:

    commits = []; page = 1
    while True:
        page_commits = fetch(page)
        if not page_commits: break
        commits.extend(page_commits); page += 1
        if len(commits) >= 1000: break

`server n` is the page the remote API returns for page number `n`.  The loop
performs at most 1000 iterations from an empty accumulator (each non-final
iteration grows the accumulator by at least one item and recursion only
happens while the accumulated length is at most 999), so running it with
structural fuel 1000 is exact; `getPagesFuel_fuel_irrelevant` below proves
the fuel does not cut the computation short.
-/
def getPagesFuel (server : Nat → List α) : Nat → Nat → List α → List α
  | 0, _, acc => acc
  | fuel + 1, page, acc =>
    let p := server page
    if p.isEmpty then acc
    else
      let acc2 := acc ++ p
      if 1000 ≤ acc2.length then acc2
      else getPagesFuel server fuel (page + 1) acc2

/-- The full paginated fetch: page numbering starts at 1, accumulator empty. -/
def paginatedFetch (server : Nat → List α) : List α :=
  getPagesFuel server 1000 1 []

/-- As long as the fuel dominates the remaining distance to the 1000-item
cap, adding more fuel does not change the result: the fuel is an artifact of
the embedding, not a semantic bound. -/
theorem getPagesFuel_fuel_irrelevant (server : Nat → List α) :
    ∀ fuel fuel₂ page acc, acc.length < 1000 →
      1000 ≤ fuel + acc.length → 1000 ≤ fuel₂ + acc.length →
      getPagesFuel server fuel page acc = getPagesFuel server fuel₂ page acc := by
  intro fuel
  induction fuel with
  | zero =>
    intro fuel₂ page acc hacc h _
    omega
  | succ f ih =>
    intro fuel₂ page acc hacc h h₂
    cases fuel₂ with
    | zero => omega
    | succ f₂ =>
      simp only [getPagesFuel]
      by_cases hp : (server page).isEmpty
      · simp [hp]
      · simp only [hp, if_false, Bool.false_eq_true]
        by_cases hlen : 1000 ≤ (acc ++ server page).length
        · rw [List.length_append] at hlen
          simp [hlen]
        · simp only [hlen, if_false]
          have hne : server page ≠ [] := by
            intro hnil
            rw [hnil] at hp
            simp at hp
          have hpos : 0 < (server page).length := List.length_pos.mpr hne
          apply ih
          · rw [List.length_append] at hlen ⊢; omega
          · rw [List.length_append]; omega
          · rw [List.length_append]; omega

/-- Invariant proof behind the pagination contract: the fetched list is the
concatenation of the consecutive pages `page, page+1, …`, every consumed page
was non-empty, the loop only continued while the accumulated length was below
1000, and it stopped because the cap was reached or the next page was empty. -/
theorem getPagesFuel_characterization (server : Nat → List α) :
    ∀ fuel page acc, acc.length < 1000 → 1000 ≤ fuel + acc.length →
      ∃ k, getPagesFuel server fuel page acc
            = acc ++ ((List.range' page k).map server).flatten ∧
        (∀ i, i < k → server (page + i) ≠ []) ∧
        (∀ i, i + 1 < k →
          (acc ++ ((List.range' page (i + 1)).map server).flatten).length < 1000) ∧
        (1000 ≤ (getPagesFuel server fuel page acc).length ∨ server (page + k) = []) := by
  intro fuel
  induction fuel with
  | zero => intro page acc hacc h; omega
  | succ f ih =>
    intro page acc hacc h
    by_cases hp : (server page).isEmpty
    · refine ⟨0, ?_, ?_, ?_, ?_⟩
      · simp [getPagesFuel, hp]
      · intro i hi; omega
      · intro i hi; omega
      · right
        simpa using List.isEmpty_iff.mp hp
    · have hpne : server page ≠ [] := fun hnil => by simp [hnil] at hp
      by_cases hlen : 1000 ≤ (acc ++ server page).length
      · have hres : getPagesFuel server (f + 1) page acc = acc ++ server page := by
          rw [List.length_append] at hlen
          simp [getPagesFuel, hp, hlen]
        refine ⟨1, ?_, ?_, ?_, ?_⟩
        · simp [hres]
        · intro i hi
          interval_cases i
          simpa using hpne
        · intro i hi; omega
        · left
          rw [hres]
          exact hlen
      · have hres : getPagesFuel server (f + 1) page acc
            = getPagesFuel server f (page + 1) (acc ++ server page) := by
          rw [List.length_append] at hlen
          simp [getPagesFuel, hp, hlen]
        have hpos : 0 < (server page).length := List.length_pos.mpr hpne
        have hacc2 : (acc ++ server page).length < 1000 := by
          exact Nat.lt_of_not_le hlen
        have hf : 1000 ≤ f + (acc ++ server page).length := by
          rw [List.length_append]
          rw [List.length_append] at hacc2
          omega
        obtain ⟨k, hk, hne, hcum, hstop⟩ := ih (page + 1) (acc ++ server page) hacc2 hf
        refine ⟨k + 1, ?_, ?_, ?_, ?_⟩
        · rw [hres, hk, List.range'_succ]
          simp [List.append_assoc]
        · intro i hi
          cases i with
          | zero => simpa using hpne
          | succ j =>
            have := hne j (by omega)
            have harith : page + (j + 1) = page + 1 + j := by omega
            rw [harith]
            exact this
        · intro i hi
          cases i with
          | zero =>
            simpa [List.range'_succ] using hacc2
          | succ j =>
            have := hcum j (by omega)
            rw [List.range'_succ]
            simpa [List.append_assoc] using this
        · rw [hres]
          have harith : page + (k + 1) = page + 1 + k := by omega
          rw [harith]
          exact hstop

/-- If every page the server can return holds at most `M` items, the fetched
list is shorter than `1000 + M`: the page that crosses the 1000-item cap is
kept whole, so the overshoot is bounded by one page. -/
theorem getPagesFuel_length_bound (server : Nat → List α) (M : Nat)
    (hM : ∀ n, (server n).length ≤ M) :
    ∀ fuel page acc, acc.length < 1000 →
      (getPagesFuel server fuel page acc).length < 1000 + M := by
  intro fuel
  induction fuel with
  | zero =>
    intro page acc hacc
    simpa [getPagesFuel] using Nat.lt_of_lt_of_le hacc (by omega)
  | succ f ih =>
    intro page acc hacc
    by_cases hp : (server page).isEmpty
    · simp only [getPagesFuel, hp, if_true]
      omega
    · simp only [getPagesFuel, hp, Bool.false_eq_true, if_false]
      by_cases hlen : 1000 ≤ (acc ++ server page).length
      · rw [List.length_append] at hlen
        simp only [List.length_append, hlen, if_true]
        have := hM page
        omega
      · rw [List.length_append] at hlen
        simp only [List.length_append, hlen, if_false]
        exact ih (page + 1) (acc ++ server page) (by rw [List.length_append]; omega)

end Pagination

/-- A remote history with more than 1000 items served in pages of 501:
pages 1-3 each hold 501 items, later pages are empty. -/
def c6server : Nat → List Nat :=
  fun page => if page ≤ 3 then List.replicate 501 0 else []

set_option maxRecDepth 100000 in
/-- C6, counterexample to the claim as stated: the cumulative-cap check runs
only after a whole page has been appended, so against `c6server` the loop
returns 1002 items even though the upstream still has more (page 3 is
non-empty) — the returned sequence does contain more than 1000 items. -/
theorem c6_cap_exceeded_counterexample :
    (paginatedFetch c6server).length = 1002 ∧
      1000 < (paginatedFetch c6server).length ∧ c6server 3 ≠ [] := by
  refine ⟨by decide, by decide, by decide⟩

/-- C6 (amended): the paginated fetch of commits and repository lists
(`GitHubClient.get_commits`, `get_user_repositories`) pages through the
remote API until either a page comes back empty or the cumulative count has
reached 1000, whichever first; the page that crosses the cap is kept whole,
so when every page holds at most `M` items the result is shorter than
`1000 + M` (it can exceed 1000, but never by a full page). -/
theorem c6_pagination_stops_at_cap_or_empty {α : Type} (server : Nat → List α)
    (M : Nat) (hM : ∀ n, (server n).length ≤ M) :
    (∃ k, paginatedFetch server = ((List.range' 1 k).map server).flatten ∧
        (∀ i, i < k → server (1 + i) ≠ []) ∧
        (∀ i, i + 1 < k →
          (((List.range' 1 (i + 1)).map server).flatten).length < 1000) ∧
        (1000 ≤ (paginatedFetch server).length ∨ server (1 + k) = [])) ∧
      (paginatedFetch server).length < 1000 + M := by
  constructor
  · have h := getPagesFuel_characterization server 1000 1 [] (by simp) (by simp)
    simpa [paginatedFetch] using h
  · exact getPagesFuel_length_bound server M hM 1000 1 [] (by simp)

/-- A one-page upstream used to instantiate the pagination contract. -/
def c6smallServer : Nat → List Nat :=
  fun page => if page = 1 then [7] else []

/-- C6 witness: the amended pagination contract holds at a concrete
single-page upstream whose pages all hold at most one item. -/
theorem c6_pagination_witness :
    (∃ k, paginatedFetch c6smallServer = ((List.range' 1 k).map c6smallServer).flatten ∧
        (∀ i, i < k → c6smallServer (1 + i) ≠ []) ∧
        (∀ i, i + 1 < k →
          (((List.range' 1 (i + 1)).map c6smallServer).flatten).length < 1000) ∧
        (1000 ≤ (paginatedFetch c6smallServer).length ∨ c6smallServer (1 + k) = [])) ∧
      (paginatedFetch c6smallServer).length < 1000 + 1 :=
  c6_pagination_stops_at_cap_or_empty c6smallServer 1
    (by
      intro n
      by_cases h : n = 1 <;> simp [c6smallServer, h])

/-- A repository row carrying the error recorded by a previous failed sync. -/
def c5repo : Repository :=
  { id := 1, name := "widgets", full_name := "acme/widgets",
    url := "https://github.com/acme/widgets",
    clone_url := "https://github.com/acme/widgets.git",
    external_id := "42", description := none, default_branch := "main",
    is_private := false, owner_id := 1, sync_status := "failed",
    sync_error := some "boom", last_synced_at := none }

/-- C5, counterexample to the claim as stated: `sync_repository` enters the
`syncing` state by assigning `sync_status` only (tasks.py lines 35-37); the
previously recorded `sync_error` is not cleared, so after entering `syncing`
the repository still carries the old error message. -/
theorem c5_enter_syncing_counterexample :
    (enterSyncing c5repo).sync_status = "syncing" ∧
      (enterSyncing c5repo).sync_error = some "boom" ∧
      (enterSyncing c5repo).sync_error ≠ none := by
  refine ⟨rfl, rfl, by decide⟩

/-- C5 (amended): when a sync job enters the `syncing` state, the
repository's `sync_status` is set to `syncing` and every other sync-related
column — in particular the previously recorded error message — is left
unchanged.  (The error is only reset by the separate force-sync endpoint,
and overwritten by the next failure.) -/
theorem c5_enter_syncing_sets_status_keeps_error (r : Repository) :
    (enterSyncing r).sync_status = "syncing" ∧
      (enterSyncing r).sync_error = r.sync_error ∧
      (enterSyncing r).last_synced_at = r.last_synced_at := by
  exact ⟨rfl, rfl, rfl⟩

/-! ### Commit detail parsing (`parse_commit_data`, repositories/github.py lines 154-197)

Raw GitHub payloads are embedded as records whose `Option` fields model the
`dict.get` accesses of the Python code: an absent key is `none` (for the
nested `commit`/`author`/`committer` dicts the `{}` default collapses to a
record whose fields are all `none`), and `.get('files', [])` /
`.get('parents', [])` are lists defaulting to `[]`. -/

/-- One entry of the commit detail's `files` array. -/
structure RawFile where
  filename : Option String
  additions : Option Nat
  deletions : Option Nat
  status : Option String
  deriving Repr, DecidableEq

/-- The `author` / `committer` sub-dict of the commit detail. -/
structure RawPerson where
  name : Option String
  email : Option String
  date : Option String
  deriving Repr, DecidableEq

/-- The nested `commit` sub-dict of the commit detail. -/
structure RawInner where
  message : Option String
  author : RawPerson
  committer : RawPerson
  deriving Repr, DecidableEq

/-- One entry of the `parents` array (`p.get('sha')`). -/
structure RawParent where
  sha : Option String
  deriving Repr, DecidableEq

/-- The raw commit detail payload handed to `parse_commit_data`. -/
structure RawCommitData where
  sha : Option String
  commit : RawInner
  files : List RawFile
  parents : List RawParent
  deriving Repr, DecidableEq

/-- A civil (wall-clock) date-time, the fields of a Python `datetime`. -/
structure Civil where
  year : Nat
  month : Nat
  day : Nat
  hour : Nat
  minute : Nat
  second : Nat
  deriving Repr, DecidableEq

/-- The result of `datetime.fromisoformat`: civil fields plus the UTC offset
in minutes.  `utcOffsetMinutes = none` models a naive datetime; `some 0`
models an aware datetime whose `utcoffset()` is zero, i.e. an instant in
UTC. -/
structure PyDateTime where
  civil : Civil
  utcOffsetMinutes : Option Int
  deriving Repr, DecidableEq

/-- Numeric value of an ASCII digit. -/
def charDigit? (c : Char) : Option Nat :=
  if c.isDigit then some (c.toNat - 48) else none

/-- Two-digit decimal field. -/
def twoDigits? (a b : Char) : Option Nat := do
  let x ← charDigit? a
  let y ← charDigit? b
  pure (10 * x + y)

/-- Four-digit decimal field. -/
def fourDigits? (a b c d : Char) : Option Nat := do
  let x ← twoDigits? a b
  let y ← twoDigits? c d
  pure (100 * x + y)

/-- The 19-character civil part `YYYY-MM-DDTHH:MM:SS` of an ISO-8601 string,
with the basic range checks `fromisoformat` performs.  Any other shape is a
parse failure (Python raises `ValueError`). -/
def parseCivil (l : List Char) : Option Civil :=
  match l with
  | [y1, y2, y3, y4, '-', m1, m2, '-', d1, d2, 'T', h1, h2, ':', mi1, mi2, ':', s1, s2] => do
    let y ← fourDigits? y1 y2 y3 y4
    let mo ← twoDigits? m1 m2
    let d ← twoDigits? d1 d2
    let h ← twoDigits? h1 h2
    let mi ← twoDigits? mi1 mi2
    let s ← twoDigits? s1 s2
    if 1 ≤ mo ∧ mo ≤ 12 ∧ 1 ≤ d ∧ d ≤ 31 ∧ h ≤ 23 ∧ mi ≤ 59 ∧ s ≤ 59 then
      some ⟨y, mo, d, h, mi, s⟩
    else none
  | _ => none

/-- The trailing UTC-offset part of an ISO-8601 string: empty (naive) or
`±HH:MM`. -/
def parseOffset (l : List Char) : Option (Option Int) :=
  match l with
  | [] => some none
  | ['+', o1, o2, ':', o3, o4] => do
    let h ← twoDigits? o1 o2
    let m ← twoDigits? o3 o4
    if h ≤ 23 ∧ m ≤ 59 then some (some ((h * 60 + m : Nat) : Int)) else none
  | ['-', o1, o2, ':', o3, o4] => do
    let h ← twoDigits? o1 o2
    let m ← twoDigits? o3 o4
    if h ≤ 23 ∧ m ≤ 59 then some (some (-((h * 60 + m : Nat) : Int))) else none
  | _ => none

/-- Model of `datetime.fromisoformat` on the `YYYY-MM-DDTHH:MM:SS[±HH:MM]` shapes the
GitHub API produces: the first 19 characters are the civil part, the rest the
offset. -/
def pyFromIso (s : String) : Option PyDateTime :=
  match parseCivil (s.data.take 19), parseOffset (s.data.drop 19) with
  | some c, some off => some ⟨c, off⟩
  | _, _ => none

/-- Python's `s.replace('Z', '+00:00')`: every occurrence of the character
`Z` is replaced by the six characters `+00:00`. -/
def pyReplaceZ (s : String) : String :=
  ⟨(s.data.map (fun c => if c = 'Z' then "+00:00".data else [c])).flatten⟩

/-- The classification loop of `parse_commit_data` (lines 170-179): each
file goes to `files_added` if its server-reported status is `added`, to
`files_deleted` if it is `removed`, and to `files_modified` otherwise,
preserving order.  Returns `(files_modified, files_added, files_deleted)`. -/
def classifyFiles : List RawFile → List (Option String) × List (Option String) × List (Option String)
  | [] => ([], [], [])
  | f :: rest =>
    let (m, a, d) := classifyFiles rest
    if f.status = some "added" then (m, f.filename :: a, d)
    else if f.status = some "removed" then (m, a, f.filename :: d)
    else (f.filename :: m, a, d)

/-- The normalized commit produced by `parse_commit_data`.  `commit_date`
is `none` exactly when `datetime.fromisoformat` would raise. -/
structure ParsedCommit where
  sha : Option String
  message : String
  author_name : String
  author_email : String
  committer_name : String
  committer_email : String
  commit_date : Option PyDateTime
  lines_added : Nat
  lines_removed : Nat
  files_changed : Nat
  files_modified : List (Option String)
  files_added : List (Option String)
  files_deleted : List (Option String)
  parent_shas : List (Option String)
  is_merge : Bool
  deriving Repr, DecidableEq

/-- Embedding of `parse_commit_data` (repositories/github.py lines 154-197). -/
def parse_commit_data (commit_data : RawCommitData) : ParsedCommit :=
  let commit := commit_data.commit
  let author := commit.author
  let committer := commit.committer
  let files := commit_data.files
  let (m, a, d) := classifyFiles files
  { sha := commit_data.sha
    message := commit.message.getD ""
    author_name := author.name.getD ""
    author_email := author.email.getD ""
    committer_name := committer.name.getD ""
    committer_email := committer.email.getD ""
    commit_date := pyFromIso (pyReplaceZ (author.date.getD ""))
    lines_added := (files.map (fun f => f.additions.getD 0)).sum
    lines_removed := (files.map (fun f => f.deletions.getD 0)).sum
    files_changed := files.length
    files_modified := m
    files_added := a
    files_deleted := d
    parent_shas := commit_data.parents.map (fun p => p.sha)
    is_merge := decide (1 < commit_data.parents.length) }

/-- Mapping each non-`Z` character to itself (as a singleton) and flattening
is the identity. -/
theorem flatten_map_singleton (cs : List Char) (h : 'Z' ∉ cs) :
    (cs.map (fun ch => if ch = 'Z' then "+00:00".data else [ch])).flatten = cs := by
  induction cs with
  | nil => rfl
  | cons c rest ih =>
    have hc : c ≠ 'Z' := by
      intro hc
      exact h (hc ▸ List.mem_cons_self c rest)
    have hr : 'Z' ∉ rest := fun hm => h (List.mem_cons_of_mem _ hm)
    simp [hc, ih hr]

/-- A naive parse (no offset) happens only on an empty offset part. -/
theorem parseOffset_some_none (l : List Char) (h : parseOffset l = some none) : l = [] := by
  unfold parseOffset at h
  split at h
  · rfl
  · rename_i o1 o2 o3 o4
    rcases hx : twoDigits? o1 o2 with _ | x <;> rcases hy : twoDigits? o3 o4 with _ | y <;>
      simp [hx, hy] at h
  · rename_i o1 o2 o3 o4
    rcases hx : twoDigits? o1 o2 with _ | x <;> rcases hy : twoDigits? o3 o4 with _ | y <;>
      simp [hx, hy] at h
  · simp at h

/-- A successful civil parse consumes exactly 19 characters. -/
theorem parseCivil_length (l : List Char) (c : Civil) (h : parseCivil l = some c) :
    l.length = 19 := by
  unfold parseCivil at h
  split at h
  · simp_all
  · simp at h

/-- Core of the `Z`-suffix handling: if the civil part of an ISO timestamp
parses as a naive datetime, then the same string with a `Z` suffix — after
the code's `replace('Z', '+00:00')` — parses as an aware datetime with UTC
offset zero and the same civil fields. -/
theorem pyFromIso_z_suffix (cs : List Char) (c : Civil) (hz : 'Z' ∉ cs)
    (hc : pyFromIso ⟨cs⟩ = some ⟨c, none⟩) :
    pyFromIso (pyReplaceZ ⟨cs ++ ['Z']⟩) = some ⟨c, some 0⟩ := by
  have hpair : parseCivil (cs.take 19) = some c ∧ parseOffset (cs.drop 19) = some none := by
    unfold pyFromIso at hc
    rcases hciv : parseCivil (cs.take 19) with _ | c2 <;>
      rcases hoff : parseOffset (cs.drop 19) with _ | off <;>
      simp only [hciv, hoff] at hc
    · simp at hc
    · simp at hc
    · simp at hc
    · simp only [Option.some.injEq, PyDateTime.mk.injEq] at hc
      exact ⟨by rw [hc.1], by rw [hc.2]⟩
  obtain ⟨hciv, hoff⟩ := hpair
  have hdrop : cs.drop 19 = [] := parseOffset_some_none _ hoff
  have hlen19 : (cs.take 19).length = 19 := parseCivil_length _ _ hciv
  have hlen : cs.length = 19 := by
    have h1 : cs.length - 19 = 0 := by
      simpa using congrArg List.length hdrop
    have h2 : 19 ≤ cs.length := by
      rw [List.length_take] at hlen19
      omega
    omega
  have htake : cs.take 19 = cs := List.take_of_length_le (by omega)
  have hrep : pyReplaceZ ⟨cs ++ ['Z']⟩ = ⟨cs ++ "+00:00".data⟩ := by
    unfold pyReplaceZ
    congr 1
    rw [show (⟨cs ++ ['Z']⟩ : String).data = cs ++ ['Z'] from rfl]
    rw [List.map_append, List.flatten_append, flatten_map_singleton cs hz]
    rfl
  rw [hrep]
  unfold pyFromIso
  rw [show (⟨cs ++ "+00:00".data⟩ : String).data = cs ++ "+00:00".data from rfl]
  rw [List.take_left' hlen, List.drop_left' hlen]
  rw [htake] at hciv
  rw [hciv]
  rfl

/-- The classification loop sends exactly the `added`-status files to
`files_added`, exactly the `removed`-status files to `files_deleted`, and
every other file to `files_modified`, preserving order. -/
theorem classifyFiles_eq (fs : List RawFile) :
    classifyFiles fs =
      ((fs.filter (fun f => ¬(f.status = some "added" ∨ f.status = some "removed"))).map
          (fun f => f.filename),
        (fs.filter (fun f => f.status = some "added")).map (fun f => f.filename),
        (fs.filter (fun f => f.status = some "removed")).map (fun f => f.filename)) := by
  induction fs with
  | nil => rfl
  | cons f rest ih =>
    by_cases ha : f.status = some "added"
    · simp [classifyFiles, ih, ha]
    · by_cases hr : f.status = some "removed"
      · simp [classifyFiles, ih, ha, hr]
      · simp [classifyFiles, ih, ha, hr]

/-- C9: for every raw commit payload, `parse_commit_data` sums the per-file
addition/deletion counters into `lines_added`/`lines_removed`; classifies
each changed file into exactly one of added/modified/deleted by the
server-reported status, with anything that is neither `added` nor `removed`
going to modified; sets `is_merge` true iff the commit has more than one
parent; and parses an author timestamp with a zero-offset `Z` suffix as the
same civil time with UTC offset zero. -/
theorem c9_parse_commit_data (cd : RawCommitData) :
    (parse_commit_data cd).lines_added = (cd.files.map (fun f => f.additions.getD 0)).sum ∧
    (parse_commit_data cd).lines_removed = (cd.files.map (fun f => f.deletions.getD 0)).sum ∧
    (parse_commit_data cd).files_added
        = (cd.files.filter (fun f => f.status = some "added")).map (fun f => f.filename) ∧
    (parse_commit_data cd).files_deleted
        = (cd.files.filter (fun f => f.status = some "removed")).map (fun f => f.filename) ∧
    (parse_commit_data cd).files_modified
        = (cd.files.filter (fun f =>
            ¬(f.status = some "added" ∨ f.status = some "removed"))).map (fun f => f.filename) ∧
    ((parse_commit_data cd).is_merge = true ↔ 1 < cd.parents.length) ∧
    (∀ cs c, 'Z' ∉ cs → cd.commit.author.date = some ⟨cs ++ ['Z']⟩ →
      pyFromIso ⟨cs⟩ = some ⟨c, none⟩ →
      (parse_commit_data cd).commit_date = some ⟨c, some 0⟩) := by
  refine ⟨rfl, rfl, ?_, ?_, ?_, ?_, ?_⟩
  · show (classifyFiles cd.files).2.1 = _
    rw [classifyFiles_eq]
  · show (classifyFiles cd.files).2.2 = _
    rw [classifyFiles_eq]
  · show (classifyFiles cd.files).1 = _
    rw [classifyFiles_eq]
  · simp [parse_commit_data]
  · intro cs c hz hdate hnaive
    show pyFromIso (pyReplaceZ (cd.commit.author.date.getD "")) = _
    rw [hdate]
    exact pyFromIso_z_suffix cs c hz hnaive

/-- The civil part of the concrete author timestamp used below. -/
def c9date : List Char := "2024-06-05T10:20:30".data

/-- A concrete merge-commit payload: two parents, three changed files with
statuses `added`, `modified`, `removed`, and a `Z`-suffixed timestamp. -/
def c9merge : RawCommitData :=
  { sha := some "abc",
    commit :=
      { message := some "merge branch",
        author := { name := some "Ada", email := some "ada@example.com",
                    date := some "2024-06-05T10:20:30Z" },
        committer := { name := some "Ada", email := some "ada@example.com",
                       date := some "2024-06-05T10:20:30Z" } },
    files :=
      [ { filename := some "f1", additions := some 3, deletions := some 1,
          status := some "added" },
        { filename := some "f2", additions := some 2, deletions := some 2,
          status := some "modified" },
        { filename := some "f3", additions := some 0, deletions := some 5,
          status := some "removed" } ],
    parents := [{ sha := some "p1" }, { sha := some "p2" }] }

/-- The same payload with a single parent. -/
def c9one : RawCommitData := { c9merge with parents := [{ sha := some "p1" }] }

/-- The same payload with no parent. -/
def c9zero : RawCommitData := { c9merge with parents := [] }

/-- C9 witness: on the concrete payloads, two parents give `is_merge = true`,
zero or one give `false`, the line counters are the file sums, each file
lands in its status bucket, and the `Z`-suffixed timestamp parses as the
civil time 2024-06-05 10:20:30 with UTC offset zero. -/
theorem c9_parse_commit_data_witness :
    (parse_commit_data c9merge).is_merge = true ∧
    (parse_commit_data c9one).is_merge = false ∧
    (parse_commit_data c9zero).is_merge = false ∧
    (parse_commit_data c9merge).lines_added = 5 ∧
    (parse_commit_data c9merge).lines_removed = 8 ∧
    (parse_commit_data c9merge).files_added = [some "f1"] ∧
    (parse_commit_data c9merge).files_deleted = [some "f3"] ∧
    (parse_commit_data c9merge).files_modified = [some "f2"] ∧
    (parse_commit_data c9merge).commit_date
      = some ⟨⟨2024, 6, 5, 10, 20, 30⟩, some 0⟩ := by
  refine ⟨((c9_parse_commit_data c9merge).2.2.2.2.2.1).mpr (by decide),
    by decide, by decide, by decide, by decide, by decide, by decide, by decide, ?_⟩
  exact (c9_parse_commit_data c9merge).2.2.2.2.2.2 c9date ⟨2024, 6, 5, 10, 20, 30⟩
    (by decide) (by decide) (by decide)

/-! ### Candidate selections and reconciliation
(`refresh_github_user_repositories`, background/tasks.py lines 314-409)

The task's session is the module-level `SessionLocal` with `autoflush=False`
and a single `db.commit()` at the end of the run, so the per-item
`db.query(RepositorySelection)...first()` lookups see only the rows that
were committed before the run; rows added during the run sit unflushed in
the session and are invisible to those lookups.  The embedding therefore
keeps committed rows (`sels`, updated in place as the ORM does through the
identity map) apart from rows added this run (`pending`), and appends the
two at the final commit.  Row ids are assigned in insertion order from a
`nextId` counter, modelling the autoincrement primary key. -/

/-- The `SelectionStatus` enum (models/repository_selection.py). -/
inductive SelectionStatus
  | pending
  | selected
  | deselected
  | synced
  deriving Repr, DecidableEq

/-- One item of the remote repository list as returned by the GitHub API.
`Option` fields model the `repo_data.get(...)` accesses with their defaults
applied at the use sites; the non-optional fields are accessed with `[...]`
in the Python code. `private_flag` embeds the JSON key `private`. -/
structure RepoData where
  id : Nat
  name : String
  full_name : String
  description : Option String
  html_url : String
  clone_url : String
  default_branch : Option String
  private_flag : Option Bool
  fork : Option Bool
  archived : Option Bool
  stargazers_count : Option Nat
  watchers_count : Option Nat
  forks_count : Option Nat
  size : Option Nat
  language : Option String
  deriving Repr, DecidableEq

/-- A row of `repository_selections` (models/repository_selection.py),
for a selection sourced from a GitHub user account. -/
structure Selection where
  id : Nat
  github_repo_id : Nat
  name : String
  full_name : String
  description : Option String
  url : String
  clone_url : String
  default_branch : String
  is_private : Bool
  is_fork : Bool
  is_archived : Bool
  stargazers_count : Nat
  watchers_count : Nat
  forks_count : Nat
  size : Nat
  language : Option String
  status : SelectionStatus
  selected_at : Option Nat
  repository_id : Option Nat
  github_user_id : Option Nat
  selected_by_user_id : Nat
  deriving Repr, DecidableEq

/-- The `(remote repo ID, owning account)` pair of a selection row. -/
def keyOf (s : Selection) : Nat × Option Nat :=
  (s.github_repo_id, s.github_user_id)

/-- The `(remote repo ID, owning account)` pair a remote item reconciles
against for account `uid`. -/
def itemKey (uid : Nat) (rd : RepoData) : Nat × Option Nat :=
  (rd.id, some uid)

/-- The insert branch of the reconciliation loop (tasks.py lines 352-375):
a brand-new selection with status `PENDING`, built from the remote item. -/
def newSelection (rowId uid byUser : Nat) (rd : RepoData) : Selection :=
  { id := rowId
    github_repo_id := rd.id
    name := rd.name
    full_name := rd.full_name
    description := rd.description
    url := rd.html_url
    clone_url := rd.clone_url
    default_branch := rd.default_branch.getD "main"
    is_private := rd.private_flag.getD false
    is_fork := rd.fork.getD false
    is_archived := rd.archived.getD false
    stargazers_count := rd.stargazers_count.getD 0
    watchers_count := rd.watchers_count.getD 0
    forks_count := rd.forks_count.getD 0
    size := rd.size.getD 0
    language := rd.language
    status := .pending
    selected_at := none
    repository_id := none
    github_user_id := some uid
    selected_by_user_id := byUser }

/-- The update branch of the reconciliation loop (tasks.py lines 376-385):
only the seven mutable descriptive fields are overwritten from the remote
item; everything else — in particular `status` and `selected_at` — is left
alone. -/
def updateSelectionMut (s : Selection) (rd : RepoData) : Selection :=
  { s with
    description := rd.description
    stargazers_count := rd.stargazers_count.getD 0
    watchers_count := rd.watchers_count.getD 0
    forks_count := rd.forks_count.getD 0
    size := rd.size.getD 0
    language := rd.language
    is_archived := rd.archived.getD false }

/-- The per-item lookup `db.query(RepositorySelection).filter(
github_repo_id == repo_data["id"], github_user_id == github_user_id).first()`
against the committed rows. -/
def selLookup (uid : Nat) (rd : RepoData) (cur : List Selection) : Option Selection :=
  cur.find? (fun s => decide (s.github_repo_id = rd.id ∧ s.github_user_id = some uid))

/-- Accumulator of one reconciliation run: committed rows (with in-place
updates visible through the ORM identity map), rows added this run but not
yet committed, the next autoincrement id, and the two counters. -/
structure ReconcileAcc where
  sels : List Selection
  pending : List Selection
  nextId : Nat
  new_repos : Nat
  updated_repos : Nat
  deriving Repr, DecidableEq

/-- One iteration of the `for repo_data in repos` loop of
`refresh_github_user_repositories`. -/
def reconcileStep (uid byUser : Nat) (acc : ReconcileAcc) (rd : RepoData) : ReconcileAcc :=
  match selLookup uid rd acc.sels with
  | none =>
    { acc with
      pending := acc.pending ++ [newSelection acc.nextId uid byUser rd]
      nextId := acc.nextId + 1
      new_repos := acc.new_repos + 1 }
  | some s =>
    { acc with
      sels := acc.sels.map (fun t => if t.id = s.id then updateSelectionMut t rd else t)
      updated_repos := acc.updated_repos + 1 }

/-- Result of a reconciliation run: the committed selection table after the
final `db.commit()` and the counters reported by the task. -/
structure ReconcileResult where
  sels : List Selection
  nextId : Nat
  new_repos : Nat
  updated_repos : Nat
  deriving Repr, DecidableEq

/-- The task `refresh_github_user_repositories` restricted to its reconciliation
core: fold the loop over the fetched remote items, then commit, making the
pending inserts part of the table. -/
def reconcile (uid byUser : Nat) (sels : List Selection) (nextId : Nat)
    (items : List RepoData) : ReconcileResult :=
  let acc := items.foldl (reconcileStep uid byUser) ⟨sels, [], nextId, 0, 0⟩
  ⟨acc.sels ++ acc.pending, acc.nextId, acc.new_repos, acc.updated_repos⟩

/-- The effect of one loop iteration on the committed rows only. -/
def selsStep (uid : Nat) (cur : List Selection) (rd : RepoData) : List Selection :=
  match selLookup uid rd cur with
  | none => cur
  | some s => cur.map (fun t => if t.id = s.id then updateSelectionMut t rd else t)

/-- The committed rows after the whole loop. -/
def selsAfter (uid : Nat) (cur : List Selection) (items : List RepoData) : List Selection :=
  items.foldl (selsStep uid) cur

/-- Whether a remote item hits an existing committed row. -/
def isKnown (uid : Nat) (cur : List Selection) (rd : RepoData) : Bool :=
  (selLookup uid rd cur).isSome

/-- The remote items that insert a new row this run. -/
def freshItems (uid : Nat) (cur : List Selection) (items : List RepoData) : List RepoData :=
  items.filter (fun rd => !(isKnown uid cur rd))

/-- The rows a run inserts, with consecutive autoincrement ids. -/
def newRows (uid byUser : Nat) : Nat → List RepoData → List Selection
  | _, [] => []
  | n, rd :: rest => newSelection n uid byUser rd :: newRows uid byUser (n + 1) rest

theorem updateSelectionMut_id (s : Selection) (rd : RepoData) :
    (updateSelectionMut s rd).id = s.id := rfl

theorem updateSelectionMut_key (s : Selection) (rd : RepoData) :
    keyOf (updateSelectionMut s rd) = keyOf s := rfl

theorem updateSelectionMut_idem (s : Selection) (rd : RepoData) :
    updateSelectionMut (updateSelectionMut s rd) rd = updateSelectionMut s rd := rfl

theorem updateSelectionMut_newSelection (n uid byUser : Nat) (rd : RepoData) :
    updateSelectionMut (newSelection n uid byUser rd) rd = newSelection n uid byUser rd := rfl

theorem selLookup_eq_some (uid : Nat) (rd : RepoData) (cur : List Selection) (s : Selection)
    (h : selLookup uid rd cur = some s) : s ∈ cur ∧ keyOf s = itemKey uid rd := by
  refine ⟨List.mem_of_find?_eq_some h, ?_⟩
  have hp := List.find?_some h
  simp only [decide_eq_true_eq] at hp
  simp [keyOf, itemKey, hp.1, hp.2]

theorem selLookup_eq_none (uid : Nat) (rd : RepoData) (cur : List Selection)
    (h : selLookup uid rd cur = none) : ∀ s ∈ cur, keyOf s ≠ itemKey uid rd := by
  intro s hs hk
  have hp := List.find?_eq_none.mp h s hs
  simp only [decide_eq_true_eq] at hp
  simp only [keyOf, itemKey, Prod.mk.injEq] at hk
  exact hp ⟨hk.1, hk.2⟩

/-- Whether a lookup hits depends only on the key fields, which mapping a
key-preserving function over the table does not change. -/
theorem isKnown_map (uid : Nat) (rd : RepoData) (cur : List Selection)
    (f : Selection → Selection) (hf : ∀ t, keyOf (f t) = keyOf t) :
    isKnown uid (cur.map f) rd = isKnown uid cur rd := by
  unfold isKnown selLookup
  rw [List.find?_map]
  have hfun : (fun s => decide (s.github_repo_id = rd.id ∧ s.github_user_id = some uid)) ∘ f
      = fun s => decide (s.github_repo_id = rd.id ∧ s.github_user_id = some uid) := by
    funext t
    have h1 : (f t).github_repo_id = t.github_repo_id := congrArg Prod.fst (hf t)
    have h2 : (f t).github_user_id = t.github_user_id := congrArg Prod.snd (hf t)
    simp [Function.comp, h1, h2]
  rw [hfun]
  cases List.find? (fun s => decide (s.github_repo_id = rd.id ∧ s.github_user_id = some uid)) cur <;>
    rfl

theorem isKnown_selsStep (uid : Nat) (cur : List Selection) (rd rd2 : RepoData) :
    isKnown uid (selsStep uid cur rd) rd2 = isKnown uid cur rd2 := by
  unfold selsStep
  cases h : selLookup uid rd cur with
  | none => rfl
  | some s =>
    apply isKnown_map
    intro t
    by_cases ht : t.id = s.id <;> simp [ht, updateSelectionMut_key]

theorem freshItems_congr (uid : Nat) (curA curB : List Selection) (l : List RepoData)
    (h : ∀ rd, isKnown uid curA rd = isKnown uid curB rd) :
    freshItems uid curA l = freshItems uid curB l := by
  unfold freshItems
  exact List.filter_congr (fun rd _ => by rw [h rd])

theorem selsStep_map_id (uid : Nat) (cur : List Selection) (rd : RepoData) :
    (selsStep uid cur rd).map (fun s => s.id) = cur.map (fun s => s.id) := by
  unfold selsStep
  cases h : selLookup uid rd cur with
  | none => rfl
  | some s =>
    rw [List.map_map]
    apply List.map_congr_left
    intro t _
    by_cases ht : t.id = s.id <;> simp [Function.comp, ht, updateSelectionMut_id]

theorem selsStep_map_key (uid : Nat) (cur : List Selection) (rd : RepoData) :
    (selsStep uid cur rd).map keyOf = cur.map keyOf := by
  unfold selsStep
  cases h : selLookup uid rd cur with
  | none => rfl
  | some s =>
    rw [List.map_map]
    apply List.map_congr_left
    intro t _
    by_cases ht : t.id = s.id <;> simp [Function.comp, ht, updateSelectionMut_key]

theorem selsAfter_map_id (uid : Nat) :
    ∀ (items : List RepoData) (cur : List Selection),
      (selsAfter uid cur items).map (fun s => s.id) = cur.map (fun s => s.id) := by
  intro items
  induction items with
  | nil => intro cur; rfl
  | cons rd rest ih =>
    intro cur
    show (selsAfter uid (selsStep uid cur rd) rest).map _ = _
    rw [ih (selsStep uid cur rd), selsStep_map_id]

theorem selsAfter_map_key (uid : Nat) :
    ∀ (items : List RepoData) (cur : List Selection),
      (selsAfter uid cur items).map keyOf = cur.map keyOf := by
  intro items
  induction items with
  | nil => intro cur; rfl
  | cons rd rest ih =>
    intro cur
    show (selsAfter uid (selsStep uid cur rd) rest).map _ = _
    rw [ih (selsStep uid cur rd), selsStep_map_key]

theorem newRows_map_id (uid byUser : Nat) :
    ∀ (l : List RepoData) (n : Nat),
      (newRows uid byUser n l).map (fun s => s.id) = List.range' n l.length := by
  intro l
  induction l with
  | nil => intro n; rfl
  | cons rd rest ih =>
    intro n
    simp only [newRows, List.map_cons, List.length_cons, List.range'_succ, ih (n + 1)]
    rfl

theorem newRows_map_key (uid byUser : Nat) :
    ∀ (l : List RepoData) (n : Nat),
      (newRows uid byUser n l).map keyOf = l.map (itemKey uid) := by
  intro l
  induction l with
  | nil => intro n; rfl
  | cons rd rest ih =>
    intro n
    show keyOf (newSelection n uid byUser rd) :: _ = _
    rw [ih (n + 1)]
    rfl

theorem newRows_mem (uid byUser : Nat) :
    ∀ (l : List RepoData) (n : Nat) (t : Selection), t ∈ newRows uid byUser n l →
      ∃ m rd, rd ∈ l ∧ t = newSelection m uid byUser rd := by
  intro l
  induction l with
  | nil => intro n t ht; cases ht
  | cons rd rest ih =>
    intro n t ht
    rcases ht with _ | ⟨_, hmem⟩
    · exact ⟨n, rd, List.mem_cons_self rd rest, rfl⟩
    · obtain ⟨m, rd2, hrd2, heq⟩ := ih (n + 1) t hmem
      exact ⟨m, rd2, List.mem_cons_of_mem rd hrd2, heq⟩

/-- Decomposition of the reconciliation loop: the committed rows evolve by
the key-targeted updates alone, the inserted rows are exactly the items
whose key misses the committed table (with consecutive ids), and the two
counters count those two groups.  Exact — no side conditions. -/
theorem reconcile_foldl_decomp (uid byUser : Nat) :
    ∀ (items : List RepoData) (acc : ReconcileAcc),
      items.foldl (reconcileStep uid byUser) acc =
        ⟨selsAfter uid acc.sels items,
          acc.pending ++ newRows uid byUser acc.nextId (freshItems uid acc.sels items),
          acc.nextId + (freshItems uid acc.sels items).length,
          acc.new_repos + (freshItems uid acc.sels items).length,
          acc.updated_repos + items.countP (fun rd => isKnown uid acc.sels rd)⟩ := by
  intro items
  induction items with
  | nil =>
    intro acc
    cases acc
    simp [selsAfter, freshItems, newRows]
  | cons rd rest ih =>
    intro acc
    rw [List.foldl_cons, ih]
    cases hl : selLookup uid rd acc.sels with
    | some s =>
      have hknown : isKnown uid acc.sels rd = true := by simp [isKnown, hl]
      have hstep : reconcileStep uid byUser acc rd =
          { acc with
            sels := acc.sels.map (fun t => if t.id = s.id then updateSelectionMut t rd else t)
            updated_repos := acc.updated_repos + 1 } := by
        simp [reconcileStep, hl]
      have hsels : selsStep uid acc.sels rd
          = acc.sels.map (fun t => if t.id = s.id then updateSelectionMut t rd else t) := by
        simp [selsStep, hl]
      have hik : ∀ rd2, isKnown uid (selsStep uid acc.sels rd) rd2 = isKnown uid acc.sels rd2 :=
        fun rd2 => isKnown_selsStep uid acc.sels rd rd2
      rw [hstep]
      simp only [ReconcileAcc.mk.injEq]
      refine ⟨?_, ?_, ?_, ?_, ?_⟩
      · show selsAfter uid _ rest = selsAfter uid acc.sels (rd :: rest)
        rw [← hsels]
        rfl
      · rw [← hsels, freshItems_congr uid _ _ rest hik]
        have : freshItems uid acc.sels (rd :: rest) = freshItems uid acc.sels rest := by
          simp [freshItems, List.filter_cons, hknown]
        rw [this]
      · rw [← hsels, freshItems_congr uid _ _ rest hik]
        have : freshItems uid acc.sels (rd :: rest) = freshItems uid acc.sels rest := by
          simp [freshItems, List.filter_cons, hknown]
        rw [this]
      · rw [← hsels, freshItems_congr uid _ _ rest hik]
        have : freshItems uid acc.sels (rd :: rest) = freshItems uid acc.sels rest := by
          simp [freshItems, List.filter_cons, hknown]
        rw [this]
      · rw [← hsels]
        have hcnt : rest.countP (fun rd2 => isKnown uid (selsStep uid acc.sels rd) rd2)
            = rest.countP (fun rd2 => isKnown uid acc.sels rd2) := by
          apply List.countP_congr
          intro rd2 _
          rw [hik rd2]
        rw [hcnt, List.countP_cons]
        simp [hknown]
        omega
    | none =>
      have hknown : isKnown uid acc.sels rd = false := by simp [isKnown, hl]
      have hstep : reconcileStep uid byUser acc rd =
          { acc with
            pending := acc.pending ++ [newSelection acc.nextId uid byUser rd]
            nextId := acc.nextId + 1
            new_repos := acc.new_repos + 1 } := by
        simp [reconcileStep, hl]
      have hsels : selsStep uid acc.sels rd = acc.sels := by
        simp [selsStep, hl]
      have hfresh : freshItems uid acc.sels (rd :: rest)
          = rd :: freshItems uid acc.sels rest := by
        simp [freshItems, List.filter_cons, hknown]
      rw [hstep]
      simp only [ReconcileAcc.mk.injEq]
      refine ⟨?_, ?_, ?_, ?_, ?_⟩
      · have hunf : selsAfter uid acc.sels (rd :: rest)
            = selsAfter uid (selsStep uid acc.sels rd) rest := rfl
        rw [hunf, hsels]
      · rw [hfresh]
        simp only [newRows, List.append_assoc, List.singleton_append]
      · rw [hfresh]
        simp only [List.length_cons]
        omega
      · rw [hfresh]
        simp only [List.length_cons]
        omega
      · rw [List.countP_cons]
        simp [hknown]

/-- Cumulative effect of a run's update branches on one committed row: the
row is updated with the (unique) remote item whose key matches it, if any. -/
def applyItems (uid : Nat) (items : List RepoData) (s : Selection) : Selection :=
  match items.find? (fun rd => decide (keyOf s = itemKey uid rd)) with
  | some rd => updateSelectionMut s rd
  | none => s

/-- The run `reconcile`, decomposed: updated committed rows, then the newly inserted
rows with consecutive ids; `new_count` counts the missing keys and
`updated_count` the hits. -/
theorem reconcile_decomp (uid byUser : Nat) (sels : List Selection) (nextId : Nat)
    (items : List RepoData) :
    reconcile uid byUser sels nextId items =
      ⟨selsAfter uid sels items ++ newRows uid byUser nextId (freshItems uid sels items),
        nextId + (freshItems uid sels items).length,
        (freshItems uid sels items).length,
        items.countP (fun rd => isKnown uid sels rd)⟩ := by
  unfold reconcile
  rw [reconcile_foldl_decomp]
  simp

/-- When the remote items carry pairwise distinct ids and the committed
table has no duplicate keys and no duplicate row ids, the loop's effect on
the committed rows is exactly `applyItems` applied pointwise. -/
theorem selsAfter_characterization (uid : Nat) :
    ∀ (items : List RepoData) (cur : List Selection),
      (items.map (fun rd => rd.id)).Nodup →
      (cur.map keyOf).Nodup →
      (cur.map (fun s => s.id)).Nodup →
      selsAfter uid cur items = cur.map (applyItems uid items) := by
  intro items
  induction items with
  | nil =>
    intro cur _ _ _
    have : ∀ t ∈ cur, applyItems uid ([] : List RepoData) t = t := by
      intro t _
      rfl
    rw [List.map_congr_left this]
    simp [selsAfter]
  | cons rd rest ih =>
    intro cur hitems hkeys hids
    have hrest : (rest.map (fun r => r.id)).Nodup := by
      simp only [List.map_cons, List.nodup_cons] at hitems
      exact hitems.2
    have hridrest : rd.id ∉ rest.map (fun r => r.id) := by
      simp only [List.map_cons, List.nodup_cons] at hitems
      exact hitems.1
    have hunf : selsAfter uid cur (rd :: rest) = selsAfter uid (selsStep uid cur rd) rest := rfl
    rw [hunf]
    cases hl : selLookup uid rd cur with
    | none =>
      have hstep : selsStep uid cur rd = cur := by simp [selsStep, hl]
      rw [hstep, ih cur hrest hkeys hids]
      apply List.map_congr_left
      intro t ht
      have hne := selLookup_eq_none uid rd cur hl t ht
      unfold applyItems
      rw [List.find?_cons_of_neg]
      simpa using hne
    | some s0 =>
      obtain ⟨hs0mem, hs0key⟩ := selLookup_eq_some uid rd cur s0 hl
      have hstep : selsStep uid cur rd
          = cur.map (fun t => if t.id = s0.id then updateSelectionMut t rd else t) := by
        simp [selsStep, hl]
      have hkeys2 : ((cur.map (fun t => if t.id = s0.id then updateSelectionMut t rd else t)).map
          keyOf).Nodup := by
        have hconst := selsStep_map_key uid cur rd
        rw [hstep] at hconst
        rw [hconst]
        exact hkeys
      have hids2 : ((cur.map (fun t => if t.id = s0.id then updateSelectionMut t rd else t)).map
          (fun s => s.id)).Nodup := by
        have hconst := selsStep_map_id uid cur rd
        rw [hstep] at hconst
        rw [hconst]
        exact hids
      rw [hstep, ih _ hrest hkeys2 hids2, List.map_map]
      apply List.map_congr_left
      intro t ht
      show applyItems uid rest (if t.id = s0.id then updateSelectionMut t rd else t)
        = applyItems uid (rd :: rest) t
      by_cases hk : keyOf t = itemKey uid rd
      · have hts0 : t = s0 :=
          List.inj_on_of_nodup_map hkeys ht hs0mem (by rw [hk, hs0key])
        have hsel : (if t.id = s0.id then updateSelectionMut t rd else t)
            = updateSelectionMut t rd := by
          simp [hts0]
        rw [hsel]
        have hfind : rest.find?
            (fun rd2 => decide (keyOf (updateSelectionMut t rd) = itemKey uid rd2)) = none := by
          rw [List.find?_eq_none]
          intro rd2 hrd2
          simp only [updateSelectionMut_key, hk, itemKey, Prod.mk.injEq, decide_eq_true_eq,
            not_and]
          intro hid _
          exact absurd (hid ▸ List.mem_map_of_mem (fun r => r.id) hrd2) hridrest
        have hhead : (rd :: rest).find? (fun rd2 => decide (keyOf t = itemKey uid rd2))
            = some rd := by
          rw [List.find?_cons_of_pos]
          simpa using hk
        unfold applyItems
        rw [hfind, hhead]
      · have htid : t.id ≠ s0.id := by
          intro he
          exact hk ((List.inj_on_of_nodup_map hids ht hs0mem he) ▸ hs0key)
        have hsel : (if t.id = s0.id then updateSelectionMut t rd else t) = t := by
          simp [htid]
        rw [hsel]
        unfold applyItems
        rw [List.find?_cons_of_neg]
        simpa using hk

theorem applyItems_fields (uid : Nat) (items : List RepoData) (s : Selection) :
    (applyItems uid items s).id = s.id ∧
    (applyItems uid items s).status = s.status ∧
    (applyItems uid items s).selected_at = s.selected_at ∧
    (applyItems uid items s).github_repo_id = s.github_repo_id ∧
    (applyItems uid items s).github_user_id = s.github_user_id ∧
    (applyItems uid items s).name = s.name ∧
    (applyItems uid items s).full_name = s.full_name ∧
    (applyItems uid items s).url = s.url ∧
    (applyItems uid items s).clone_url = s.clone_url ∧
    (applyItems uid items s).default_branch = s.default_branch ∧
    (applyItems uid items s).is_private = s.is_private ∧
    (applyItems uid items s).is_fork = s.is_fork ∧
    (applyItems uid items s).repository_id = s.repository_id ∧
    (applyItems uid items s).selected_by_user_id = s.selected_by_user_id := by
  unfold applyItems
  cases items.find? (fun rd => decide (keyOf s = itemKey uid rd)) <;>
    simp [updateSelectionMut]

theorem applyItems_key (uid : Nat) (items : List RepoData) (s : Selection) :
    keyOf (applyItems uid items s) = keyOf s := by
  unfold applyItems
  cases items.find? (fun rd => decide (keyOf s = itemKey uid rd)) <;>
    simp [updateSelectionMut_key]

theorem newSelection_key (n uid byUser : Nat) (rd : RepoData) :
    keyOf (newSelection n uid byUser rd) = itemKey uid rd := rfl

theorem isKnown_iff (uid : Nat) (cur : List Selection) (rd : RepoData) :
    isKnown uid cur rd = true ↔ ∃ s ∈ cur, keyOf s = itemKey uid rd := by
  unfold isKnown selLookup
  rw [List.find?_isSome]
  constructor
  · rintro ⟨s, hs, hp⟩
    simp only [decide_eq_true_eq] at hp
    exact ⟨s, hs, by simp [keyOf, itemKey, hp.1, hp.2]⟩
  · rintro ⟨s, hs, hk⟩
    simp only [keyOf, itemKey, Prod.mk.injEq] at hk
    exact ⟨s, hs, by simp [hk.1, hk.2]⟩

/-- The row ids after a reconcile run: the unchanged committed ids followed
by the consecutive autoincrement ids of the inserted rows. -/
theorem reconcile_sels_map_id (uid byUser : Nat) (sels : List Selection) (nextId : Nat)
    (items : List RepoData) :
    ((reconcile uid byUser sels nextId items).sels).map (fun s => s.id)
      = sels.map (fun s => s.id)
        ++ List.range' nextId (freshItems uid sels items).length := by
  rw [reconcile_decomp]
  show (selsAfter uid sels items ++ newRows uid byUser nextId (freshItems uid sels items)).map _
      = _
  rw [List.map_append, selsAfter_map_id, newRows_map_id]

/-- The keys after a reconcile run: the unchanged committed keys followed by
the keys of the inserted items. -/
theorem reconcile_sels_map_key (uid byUser : Nat) (sels : List Selection) (nextId : Nat)
    (items : List RepoData) :
    ((reconcile uid byUser sels nextId items).sels).map keyOf
      = sels.map keyOf ++ (freshItems uid sels items).map (itemKey uid) := by
  rw [reconcile_decomp]
  show (selsAfter uid sels items ++ newRows uid byUser nextId (freshItems uid sels items)).map _
      = _
  rw [List.map_append, selsAfter_map_key, newRows_map_key]

theorem reconcile_sels_id_nodup (uid byUser : Nat) (sels : List Selection) (nextId : Nat)
    (items : List RepoData)
    (hids : (sels.map (fun s => s.id)).Nodup)
    (hfresh : ∀ t ∈ sels, t.id < nextId) :
    (((reconcile uid byUser sels nextId items).sels).map (fun s => s.id)).Nodup := by
  rw [reconcile_sels_map_id]
  rw [List.nodup_append]
  refine ⟨hids, List.nodup_range' _ _, ?_⟩
  intro a ha hb
  rw [List.mem_range'_1] at hb
  obtain ⟨t, ht, rfl⟩ := List.mem_map.mp ha
  exact absurd (hfresh t ht) (by omega)

/-- C2: for every candidate selection already present for a
`(remote repo ID, account)` pair, reconciliation keeps a unique row with the
same id on which `status`, `selected_at`, and every other non-descriptive
column are unchanged — only the mutable descriptive fields may differ. -/
theorem c2_reconcile_overwrites_only_mutable (uid byUser : Nat) (sels : List Selection)
    (nextId : Nat) (items : List RepoData) (s : Selection)
    (hmem : s ∈ sels)
    (hitems : (items.map (fun rd => rd.id)).Nodup)
    (hkeys : (sels.map keyOf).Nodup)
    (hids : (sels.map (fun t => t.id)).Nodup)
    (hfresh : ∀ t ∈ sels, t.id < nextId) :
    ∃ t ∈ (reconcile uid byUser sels nextId items).sels,
      t.id = s.id ∧ t.status = s.status ∧ t.selected_at = s.selected_at ∧
      t.github_repo_id = s.github_repo_id ∧ t.github_user_id = s.github_user_id ∧
      t.name = s.name ∧ t.full_name = s.full_name ∧ t.url = s.url ∧
      t.clone_url = s.clone_url ∧ t.default_branch = s.default_branch ∧
      t.is_private = s.is_private ∧ t.is_fork = s.is_fork ∧
      t.repository_id = s.repository_id ∧
      t.selected_by_user_id = s.selected_by_user_id ∧
      ∀ u ∈ (reconcile uid byUser sels nextId items).sels, u.id = s.id → u = t := by
  have hnodup := reconcile_sels_id_nodup uid byUser sels nextId items hids hfresh
  have hmemres : applyItems uid items s ∈ (reconcile uid byUser sels nextId items).sels := by
    rw [reconcile_decomp]
    show _ ∈ selsAfter uid sels items ++ newRows uid byUser nextId (freshItems uid sels items)
    rw [selsAfter_characterization uid items sels hitems hkeys hids]
    exact List.mem_append_left _ (List.mem_map_of_mem (applyItems uid items) hmem)
  obtain ⟨h1, h2, h3, h4, h5, h6, h7, h8, h9, h10, h11, h12, h13, h14⟩ :=
    applyItems_fields uid items s
  refine ⟨applyItems uid items s, hmemres, h1, h2, h3, h4, h5, h6, h7, h8, h9, h10, h11, h12,
    h13, h14, ?_⟩
  intro u hu hid
  exact List.inj_on_of_nodup_map hnodup hu hmemres (by rw [hid, h1])

/-- The one pre-existing selection of the C2 scenario: repo 7 with 1 star,
user-selected at time 5. -/
def c2sel : Selection :=
  { id := 1, github_repo_id := 7, name := "alpha", full_name := "acme/alpha",
    description := some "old", url := "https://github.com/acme/alpha",
    clone_url := "https://github.com/acme/alpha.git", default_branch := "main",
    is_private := false, is_fork := false, is_archived := false,
    stargazers_count := 1, watchers_count := 1, forks_count := 0, size := 10,
    language := some "Python", status := .selected, selected_at := some 5,
    repository_id := none, github_user_id := some 1, selected_by_user_id := 1 }

/-- Remote item 7 of the C2 scenario, now with 10 stars. -/
def c2item7 : RepoData :=
  { id := 7, name := "alpha", full_name := "acme/alpha", description := some "fresh",
    html_url := "https://github.com/acme/alpha",
    clone_url := "https://github.com/acme/alpha.git", default_branch := some "main",
    private_flag := some false, fork := some false, archived := some false,
    stargazers_count := some 10, watchers_count := some 3, forks_count := some 2,
    size := some 11, language := some "Python" }

/-- Remote item 8 of the C2 scenario (new). -/
def c2item8 : RepoData :=
  { id := 8, name := "beta", full_name := "acme/beta", description := none,
    html_url := "https://github.com/acme/beta",
    clone_url := "https://github.com/acme/beta.git", default_branch := some "main",
    private_flag := some false, fork := some false, archived := some false,
    stargazers_count := some 0, watchers_count := some 0, forks_count := some 0,
    size := some 1, language := none }

/-- Remote item 9 of the C2 scenario (new). -/
def c2item9 : RepoData :=
  { id := 9, name := "gamma", full_name := "acme/gamma", description := none,
    html_url := "https://github.com/acme/gamma",
    clone_url := "https://github.com/acme/gamma.git", default_branch := some "main",
    private_flag := some true, fork := some true, archived := some false,
    stargazers_count := some 4, watchers_count := some 4, forks_count := some 1,
    size := some 2, language := some "Go" }

/-- The C2 scenario run: account 1 reconciled against a 3-item remote list
where item 7 already exists locally with different stars. -/
def c2run : ReconcileResult := reconcile 1 1 [c2sel] 2 [c2item7, c2item8, c2item9]

/-- C2 witness: the scenario yields `new_count = 2`, `updated_count = 1`,
the existing selection's star count updated to 10, and — by the frame
theorem applied at this input — its `status`, `selected_at` and the other
non-descriptive fields unchanged. -/
theorem c2_reconcile_witness :
    c2run.new_repos = 2 ∧ c2run.updated_repos = 1 ∧
    (∃ t ∈ c2run.sels, t.id = 1 ∧ t.stargazers_count = 10 ∧ t.description = some "fresh") ∧
    (∃ t ∈ (reconcile 1 1 [c2sel] 2 [c2item7, c2item8, c2item9]).sels,
      t.id = c2sel.id ∧ t.status = c2sel.status ∧ t.selected_at = c2sel.selected_at ∧
      t.github_repo_id = c2sel.github_repo_id ∧ t.github_user_id = c2sel.github_user_id ∧
      t.name = c2sel.name ∧ t.full_name = c2sel.full_name ∧ t.url = c2sel.url ∧
      t.clone_url = c2sel.clone_url ∧ t.default_branch = c2sel.default_branch ∧
      t.is_private = c2sel.is_private ∧ t.is_fork = c2sel.is_fork ∧
      t.repository_id = c2sel.repository_id ∧
      t.selected_by_user_id = c2sel.selected_by_user_id ∧
      ∀ u ∈ (reconcile 1 1 [c2sel] 2 [c2item7, c2item8, c2item9]).sels, u.id = c2sel.id → u = t) := by
  refine ⟨by decide, by decide, ⟨applyItems 1 [c2item7, c2item8, c2item9] c2sel, by decide⟩, ?_⟩
  exact c2_reconcile_overwrites_only_mutable 1 1 [c2sel] 2 [c2item7, c2item8, c2item9] c2sel
    (by decide) (by decide) (by decide) (by decide) (by decide)

/-- A remote item for repo 7 as seen by account 1, used to exhibit the
duplicate-insert behaviour. -/
def c3item : RepoData :=
  { id := 7, name := "dup", full_name := "acme/dup", description := none,
    html_url := "https://github.com/acme/dup",
    clone_url := "https://github.com/acme/dup.git", default_branch := some "main",
    private_flag := some false, fork := some false, archived := some false,
    stargazers_count := some 1, watchers_count := some 1, forks_count := some 0,
    size := some 1, language := none }

/-- C3, counterexample to the claim as stated: the per-item lookup runs
against the committed rows only (`autoflush=False`, one commit at the end),
so a remote list that repeats remote repo id 7 inserts one row per
occurrence — after a single reconciliation of account 1 two Candidate
Selections exist for the pair `(7, account 1)`, and a second run with the
same list leaves both in place. -/
theorem c3_duplicate_selection_counterexample :
    ((reconcile 1 1 [] 1 [c3item, c3item]).sels.countP
        (fun s => decide (keyOf s = (7, some 1)))) = 2 ∧
    ((reconcile 1 1 (reconcile 1 1 [] 1 [c3item, c3item]).sels
        (reconcile 1 1 [] 1 [c3item, c3item]).nextId
        [c3item, c3item]).sels.countP (fun s => decide (keyOf s = (7, some 1)))) = 2 ∧
    ¬((reconcile 1 1 [] 1 [c3item, c3item]).sels.countP
        (fun s => decide (keyOf s = (7, some 1))) ≤ 1) := by
  refine ⟨by decide, by decide, by decide⟩

/-- C3 (amended): when the remote item list carries pairwise-distinct remote
repo ids — as a single GitHub listing does — and the committed table
satisfies the per-pair uniqueness invariant, reconciliation preserves that
invariant (no duplicate Candidate Selection per `(remote repo ID, account)`
pair, across any number of runs since the invariant is re-established), and
a second run with the same list is a no-op: it changes no selection row,
inserts nothing (`new_count = 0`), and merely counts every item as updated. -/
theorem c3_reconcile_idempotent_unique (uid byUser : Nat) (sels : List Selection)
    (nextId : Nat) (items : List RepoData)
    (hitems : (items.map (fun rd => rd.id)).Nodup)
    (hkeys : (sels.map keyOf).Nodup)
    (hids : (sels.map (fun s => s.id)).Nodup)
    (hfresh : ∀ t ∈ sels, t.id < nextId) :
    (((reconcile uid byUser sels nextId items).sels).map keyOf).Nodup ∧
    (((reconcile uid byUser sels nextId items).sels).map (fun s => s.id)).Nodup ∧
    (∀ t ∈ (reconcile uid byUser sels nextId items).sels,
      t.id < (reconcile uid byUser sels nextId items).nextId) ∧
    reconcile uid byUser (reconcile uid byUser sels nextId items).sels
        (reconcile uid byUser sels nextId items).nextId items
      = ⟨(reconcile uid byUser sels nextId items).sels,
          (reconcile uid byUser sels nextId items).nextId, 0, items.length⟩ := by
  have hkeys1 : (((reconcile uid byUser sels nextId items).sels).map keyOf).Nodup := by
    rw [reconcile_sels_map_key]
    rw [List.nodup_append]
    refine ⟨hkeys, ?_, ?_⟩
    · have hsub : List.Sublist (freshItems uid sels items) items := List.filter_sublist _
      have hfid : ((freshItems uid sels items).map (fun rd => rd.id)).Nodup :=
        hitems.sublist (hsub.map (fun rd => rd.id))
      have hcomp : (freshItems uid sels items).map (itemKey uid)
          = ((freshItems uid sels items).map (fun rd => rd.id)).map
              (fun i => ((i, some uid) : Nat × Option Nat)) := by
        rw [List.map_map]
        rfl
      rw [hcomp]
      refine hfid.map ?_
      intro a b hab
      simpa using congrArg Prod.fst hab
    · intro k hk1 hk2
      obtain ⟨s, hs, hkey⟩ := List.mem_map.mp hk1
      obtain ⟨rd, hrd, hkey2⟩ := List.mem_map.mp hk2
      have hrdf := List.mem_filter.mp hrd
      have hkn : isKnown uid sels rd = true :=
        (isKnown_iff uid sels rd).mpr ⟨s, hs, by rw [hkey, ← hkey2]⟩
      rw [hkn] at hrdf
      simp at hrdf
  have hids1 := reconcile_sels_id_nodup uid byUser sels nextId items hids hfresh
  have hnext : (reconcile uid byUser sels nextId items).nextId
      = nextId + (freshItems uid sels items).length := by
    rw [reconcile_decomp]
  have hbound : ∀ t ∈ (reconcile uid byUser sels nextId items).sels,
      t.id < (reconcile uid byUser sels nextId items).nextId := by
    intro t ht
    have hmap : t.id ∈ ((reconcile uid byUser sels nextId items).sels).map (fun s => s.id) :=
      List.mem_map_of_mem _ ht
    rw [reconcile_sels_map_id] at hmap
    rw [hnext]
    rcases List.mem_append.mp hmap with h | h
    · obtain ⟨u, hu, he⟩ := List.mem_map.mp h
      have := hfresh u hu
      omega
    · rw [List.mem_range'_1] at h
      omega
  have hallknown : ∀ rd ∈ items,
      isKnown uid (reconcile uid byUser sels nextId items).sels rd = true := by
    intro rd hrd
    apply (isKnown_iff _ _ _).mpr
    by_cases hk : isKnown uid sels rd = true
    · obtain ⟨s, hs, hkey⟩ := (isKnown_iff uid sels rd).mp hk
      refine ⟨applyItems uid items s, ?_, by rw [applyItems_key]; exact hkey⟩
      rw [reconcile_decomp]
      show _ ∈ selsAfter uid sels items ++ newRows uid byUser nextId (freshItems uid sels items)
      rw [selsAfter_characterization uid items sels hitems hkeys hids]
      exact List.mem_append_left _ (List.mem_map_of_mem _ hs)
    · have hrdfresh : rd ∈ freshItems uid sels items :=
        List.mem_filter.mpr ⟨hrd, by simp [Bool.not_eq_true] at hk ⊢; exact hk⟩
      have hkmem : itemKey uid rd
          ∈ (newRows uid byUser nextId (freshItems uid sels items)).map keyOf := by
        rw [newRows_map_key]
        exact List.mem_map_of_mem _ hrdfresh
      obtain ⟨row, hrow, hrowkey⟩ := List.mem_map.mp hkmem
      refine ⟨row, ?_, hrowkey⟩
      rw [reconcile_decomp]
      exact List.mem_append_right _ hrow
  have hfresh2 : freshItems uid (reconcile uid byUser sels nextId items).sels items = [] := by
    unfold freshItems
    rw [List.filter_eq_nil_iff]
    intro rd hrd
    simp [hallknown rd hrd]
  have hcount : items.countP
      (fun rd => isKnown uid (reconcile uid byUser sels nextId items).sels rd)
      = items.length := by
    rw [List.countP_eq_length]
    exact hallknown
  have hselsfix : selsAfter uid (reconcile uid byUser sels nextId items).sels items
      = (reconcile uid byUser sels nextId items).sels := by
    rw [selsAfter_characterization uid items _ hitems hkeys1 hids1]
    have hpt : ∀ t ∈ (reconcile uid byUser sels nextId items).sels,
        applyItems uid items t = t := by
      intro t ht
      unfold applyItems
      cases hf : items.find? (fun rd => decide (keyOf t = itemKey uid rd)) with
      | none => rfl
      | some rd =>
        have hrdmem := List.mem_of_find?_eq_some hf
        have hkey : keyOf t = itemKey uid rd := by
          have := List.find?_some hf
          simpa using this
        have htparts : t ∈ selsAfter uid sels items
            ++ newRows uid byUser nextId (freshItems uid sels items) := by
          rw [reconcile_decomp] at ht
          exact ht
        rcases List.mem_append.mp htparts with hA | hN
        · rw [selsAfter_characterization uid items sels hitems hkeys hids] at hA
          obtain ⟨s, hsmem, rfl⟩ := List.mem_map.mp hA
          have hpred : (fun rd2 => decide (keyOf s = itemKey uid rd2))
              = (fun rd2 => decide (keyOf (applyItems uid items s) = itemKey uid rd2)) := by
            funext rd2
            rw [applyItems_key]
          have hfind_s : items.find? (fun rd2 => decide (keyOf s = itemKey uid rd2))
              = some rd := by
            rw [hpred]
            exact hf
          have happly : applyItems uid items s = updateSelectionMut s rd := by
            unfold applyItems
            rw [hfind_s]
          rw [happly]
          exact updateSelectionMut_idem s rd
        · obtain ⟨m, rd2, hrd2, rfl⟩ := newRows_mem uid byUser _ nextId _ hN
          have hkk : itemKey uid rd2 = itemKey uid rd := by
            rw [← newSelection_key m uid byUser rd2]
            exact hkey
          have hid2 : rd2.id = rd.id := congrArg Prod.fst hkk
          have hrd2items : rd2 ∈ items := (List.mem_filter.mp hrd2).1
          have hrdeq : rd2 = rd := List.inj_on_of_nodup_map hitems hrd2items hrdmem hid2
          cases hrdeq
          exact updateSelectionMut_newSelection m uid byUser rd
    have hmc : ((reconcile uid byUser sels nextId items).sels).map (applyItems uid items)
        = ((reconcile uid byUser sels nextId items).sels).map (fun t => t) :=
      List.map_congr_left hpt
    rw [hmc]
    simp
  refine ⟨hkeys1, hids1, hbound, ?_⟩
  rw [reconcile_decomp uid byUser (reconcile uid byUser sels nextId items).sels
    (reconcile uid byUser sels nextId items).nextId items]
  rw [hfresh2, hselsfix, hcount]
  simp [newRows]

/-- The pre-existing selection used in the C3 witness (repo 5, account 1). -/
def c3base : Selection :=
  { id := 1, github_repo_id := 5, name := "base", full_name := "acme/base",
    description := none, url := "https://github.com/acme/base",
    clone_url := "https://github.com/acme/base.git", default_branch := "main",
    is_private := false, is_fork := false, is_archived := false,
    stargazers_count := 2, watchers_count := 2, forks_count := 0, size := 3,
    language := none, status := .pending, selected_at := none,
    repository_id := none, github_user_id := some 1, selected_by_user_id := 1 }

/-- Remote item 5 of the C3 witness (already known). -/
def c3itemA : RepoData :=
  { id := 5, name := "base", full_name := "acme/base", description := some "d",
    html_url := "https://github.com/acme/base",
    clone_url := "https://github.com/acme/base.git", default_branch := some "main",
    private_flag := some false, fork := some false, archived := some false,
    stargazers_count := some 9, watchers_count := some 9, forks_count := some 1,
    size := some 4, language := some "Rust" }

/-- Remote item 6 of the C3 witness (new). -/
def c3itemB : RepoData :=
  { id := 6, name := "next", full_name := "acme/next", description := none,
    html_url := "https://github.com/acme/next",
    clone_url := "https://github.com/acme/next.git", default_branch := some "main",
    private_flag := some false, fork := some false, archived := some false,
    stargazers_count := some 0, watchers_count := some 0, forks_count := some 0,
    size := some 1, language := none }

/-- C3 witness: the amended idempotence and uniqueness statement at a
concrete two-item remote list over a one-row committed table. -/
theorem c3_reconcile_idempotent_witness :
    (((reconcile 1 1 [c3base] 2 [c3itemA, c3itemB]).sels).map keyOf).Nodup ∧
    (((reconcile 1 1 [c3base] 2 [c3itemA, c3itemB]).sels).map (fun s => s.id)).Nodup ∧
    (∀ t ∈ (reconcile 1 1 [c3base] 2 [c3itemA, c3itemB]).sels,
      t.id < (reconcile 1 1 [c3base] 2 [c3itemA, c3itemB]).nextId) ∧
    reconcile 1 1 (reconcile 1 1 [c3base] 2 [c3itemA, c3itemB]).sels
        (reconcile 1 1 [c3base] 2 [c3itemA, c3itemB]).nextId [c3itemA, c3itemB]
      = ⟨(reconcile 1 1 [c3base] 2 [c3itemA, c3itemB]).sels,
          (reconcile 1 1 [c3base] 2 [c3itemA, c3itemB]).nextId, 0,
          [c3itemA, c3itemB].length⟩ :=
  c3_reconcile_idempotent_unique 1 1 [c3base] 2 [c3itemA, c3itemB]
    (by decide) (by decide) (by decide) (by decide)

/-! ### Commit ingestion (`_sync_github_repository`, tasks.py lines 69-160)

The listing returned by `get_commits` contributes only the per-commit SHA
(`commit_data.get('sha')`); the detail fetched for a new SHA is parsed with
`parse_commit_data` and persisted.  The duplicate check
`db.query(Commit).filter(Commit.sha == ..., Commit.repository_id == ...)`
runs against the rows committed before the run (`autoflush=False`); rows
staged during the run are appended at the closing `db.commit()`.  Developer
rows, by contrast, are `db.flush()`-ed as soon as they are created
(`_find_or_create_developer`), so developers created earlier in the same
run are visible to later lookups — the embedding threads them through. -/

/-- A row of the `commits` table as built by the loop (tasks.py 121-139). -/
structure StoredCommit where
  sha : Option String
  message : String
  author_name : String
  author_email : String
  committer_name : String
  committer_email : String
  commit_date : Option PyDateTime
  repository_id : Nat
  developer_id : Option Nat
  lines_added : Nat
  lines_removed : Nat
  files_changed : Nat
  files_modified : List (Option String)
  files_added : List (Option String)
  files_deleted : List (Option String)
  parent_shas : List (Option String)
  is_merge : Bool
  deriving Repr, DecidableEq

/-- A row of the `developers` table as built by
`_find_or_create_developer` (tasks.py 162-180). -/
structure DeveloperRow where
  id : Nat
  name : String
  email : String
  git_name : String
  git_email : String
  deriving Repr, DecidableEq

/-- Embedding of `_find_or_create_developer`: look up by email, first match wins;
otherwise create and flush a new row (id from the autoincrement counter). -/
def findOrCreateDeveloper (devs : List DeveloperRow) (nextDevId : Nat)
    (name email : String) : DeveloperRow × List DeveloperRow × Nat :=
  match devs.find? (fun d => decide (d.email = email)) with
  | some d => (d, devs, nextDevId)
  | none =>
    let d : DeveloperRow :=
      { id := nextDevId, name := name, email := email, git_name := name, git_email := email }
    (d, devs ++ [d], nextDevId + 1)

/-- The `Commit(...)` constructor call of the ingestion loop. -/
def mkCommitRow (repoId : Nat) (devId : Option Nat) (p : ParsedCommit) : StoredCommit :=
  { sha := p.sha
    message := p.message
    author_name := p.author_name
    author_email := p.author_email
    committer_name := p.committer_name
    committer_email := p.committer_email
    commit_date := p.commit_date
    repository_id := repoId
    developer_id := devId
    lines_added := p.lines_added
    lines_removed := p.lines_removed
    files_changed := p.files_changed
    files_modified := p.files_modified
    files_added := p.files_added
    files_deleted := p.files_deleted
    parent_shas := p.parent_shas
    is_merge := p.is_merge }

/-- The duplicate check of the loop: is a commit with this SHA already
stored for this repository (among the rows committed before the run)? -/
def alreadyStored (repoId : Nat) (stored : List StoredCommit) (sha : Option String) : Bool :=
  (stored.find? (fun c => decide (c.sha = sha ∧ c.repository_id = repoId))).isSome

/-- In-run state of the ingestion loop: staged commit rows, the (flushed)
developer table, the developer autoincrement counter, the SHAs whose detail
was fetched, and the processed counter. -/
structure IngestAcc where
  staged : List StoredCommit
  devs : List DeveloperRow
  nextDevId : Nat
  fetched : List (Option String)
  processed : Nat
  deriving Repr, DecidableEq

/-- One iteration of `for commit_data in commits_data` (tasks.py 103-153):
skip if the SHA is already stored, otherwise fetch detail, parse, resolve or
create the author's developer, and stage a new commit row. -/
def ingestStep (repoId : Nat) (detail : Option String → RawCommitData)
    (stored : List StoredCommit) (acc : IngestAcc) (sha : Option String) : IngestAcc :=
  if alreadyStored repoId stored sha then acc
  else
    let parsed := parse_commit_data (detail sha)
    let fc := findOrCreateDeveloper acc.devs acc.nextDevId parsed.author_name parsed.author_email
    { staged := acc.staged ++ [mkCommitRow repoId (some fc.1.id) parsed]
      devs := fc.2.1
      nextDevId := fc.2.2
      fetched := acc.fetched ++ [sha]
      processed := acc.processed + 1 }

/-- Result of an ingestion run, after the final `db.commit()`. -/
structure IngestResult where
  stored : List StoredCommit
  devs : List DeveloperRow
  nextDevId : Nat
  fetched : List (Option String)
  processed : Nat
  deriving Repr, DecidableEq

/-- The ingestion core of `_sync_github_repository`: run the loop over the
listing and commit the staged rows. -/
def ingest (repoId : Nat) (detail : Option String → RawCommitData)
    (stored : List StoredCommit) (devs : List DeveloperRow) (nextDevId : Nat)
    (listing : List (Option String)) : IngestResult :=
  let acc := listing.foldl (ingestStep repoId detail stored) ⟨[], devs, nextDevId, [], 0⟩
  ⟨stored ++ acc.staged, acc.devs, acc.nextDevId, acc.fetched, acc.processed⟩

/-- The listing entries that are not yet stored — the ones the run fetches,
stages and counts. -/
def freshShas (repoId : Nat) (stored : List StoredCommit)
    (listing : List (Option String)) : List (Option String) :=
  listing.filter (fun sha => !(alreadyStored repoId stored sha))

/-- Decomposition of the ingestion loop: the fetched SHAs are exactly the
fresh listing entries in order, `processed` counts them, and the staged rows
carry exactly those SHAs for this repository (assuming the remote returns
the commit that was asked for). -/
theorem ingest_foldl_decomp (repoId : Nat) (detail : Option String → RawCommitData)
    (stored : List StoredCommit) (hdetail : ∀ x, (detail x).sha = x) :
    ∀ (listing : List (Option String)) (acc : IngestAcc),
      (listing.foldl (ingestStep repoId detail stored) acc).fetched
          = acc.fetched ++ freshShas repoId stored listing ∧
      (listing.foldl (ingestStep repoId detail stored) acc).processed
          = acc.processed + (freshShas repoId stored listing).length ∧
      (listing.foldl (ingestStep repoId detail stored) acc).staged.map
            (fun c => (c.sha, c.repository_id))
          = acc.staged.map (fun c => (c.sha, c.repository_id))
            ++ (freshShas repoId stored listing).map (fun sha => (sha, repoId)) := by
  intro listing
  induction listing with
  | nil =>
    intro acc
    simp [freshShas]
  | cons sha rest ih =>
    intro acc
    rw [List.foldl_cons]
    by_cases hk : alreadyStored repoId stored sha
    · have hstep : ingestStep repoId detail stored acc sha = acc := by
        simp [ingestStep, hk]
      have hfresh : freshShas repoId stored (sha :: rest) = freshShas repoId stored rest := by
        simp [freshShas, List.filter_cons, hk]
      rw [hstep, hfresh]
      exact ih acc
    · have hstep : ingestStep repoId detail stored acc sha =
          { staged := acc.staged ++ [mkCommitRow repoId
              (some (findOrCreateDeveloper acc.devs acc.nextDevId
                (parse_commit_data (detail sha)).author_name
                (parse_commit_data (detail sha)).author_email).1.id)
              (parse_commit_data (detail sha))]
            devs := (findOrCreateDeveloper acc.devs acc.nextDevId
                (parse_commit_data (detail sha)).author_name
                (parse_commit_data (detail sha)).author_email).2.1
            nextDevId := (findOrCreateDeveloper acc.devs acc.nextDevId
                (parse_commit_data (detail sha)).author_name
                (parse_commit_data (detail sha)).author_email).2.2
            fetched := acc.fetched ++ [sha]
            processed := acc.processed + 1 } := by
        simp [ingestStep, hk]
      have hfresh : freshShas repoId stored (sha :: rest)
          = sha :: freshShas repoId stored rest := by
        simp [freshShas, List.filter_cons, hk]
      rw [hstep, hfresh]
      obtain ⟨ih1, ih2, ih3⟩ := ih
        { staged := acc.staged ++ [mkCommitRow repoId
            (some (findOrCreateDeveloper acc.devs acc.nextDevId
              (parse_commit_data (detail sha)).author_name
              (parse_commit_data (detail sha)).author_email).1.id)
            (parse_commit_data (detail sha))]
          devs := (findOrCreateDeveloper acc.devs acc.nextDevId
              (parse_commit_data (detail sha)).author_name
              (parse_commit_data (detail sha)).author_email).2.1
          nextDevId := (findOrCreateDeveloper acc.devs acc.nextDevId
              (parse_commit_data (detail sha)).author_name
              (parse_commit_data (detail sha)).author_email).2.2
          fetched := acc.fetched ++ [sha]
          processed := acc.processed + 1 }
      refine ⟨?_, ?_, ?_⟩
      · rw [ih1]
        simp
      · rw [ih2]
        simp
        omega
      · rw [ih3]
        have hsha : (parse_commit_data (detail sha)).sha = sha := hdetail sha
        simp [mkCommitRow, hsha]

/-- In a duplicate-free list, a present element is counted exactly once. -/
theorem countP_eq_one_of_nodup_mem {α : Type} [DecidableEq α] :
    ∀ (l : List α), l.Nodup → ∀ a ∈ l, l.countP (fun x => decide (x = a)) = 1 := by
  intro l
  induction l with
  | nil => intro _ a ha; cases ha
  | cons b t ih =>
    intro hn a ha
    rw [List.nodup_cons] at hn
    rw [List.countP_cons]
    rcases List.mem_cons.mp ha with rfl | hat
    · have ht0 : t.countP (fun x => decide (x = a)) = 0 := by
        rw [List.countP_eq_zero]
        intro x hx
        simp only [decide_eq_true_eq]
        intro hxa
        exact hn.1 (hxa ▸ hx)
      simp [ht0]
    · have hba : ¬(b = a) := by
        intro hba
        exact hn.1 (hba ▸ hat)
      rw [ih hn.2 a hat]
      simp [hba]

/-- Count of the rows for `(sha, repo)` among a batch of staged rows, read
off from their key projection. -/
theorem countP_staged_by_key (repoId : Nat) (staged : List StoredCommit)
    (fresh : List (Option String)) (s : Option String)
    (hmap : staged.map (fun c => (c.sha, c.repository_id))
      = fresh.map (fun sha => (sha, repoId))) :
    staged.countP (fun c => decide (c.sha = s ∧ c.repository_id = repoId))
      = fresh.countP (fun x => decide (x = s)) := by
  have h1 : staged.countP (fun c => decide (c.sha = s ∧ c.repository_id = repoId))
      = (staged.map (fun c => (c.sha, c.repository_id))).countP
          (fun pr => decide (pr = (s, repoId))) := by
    rw [List.countP_map]
    apply List.countP_congr
    intro c _
    simp [Function.comp, Prod.ext_iff]
  have h2 : (fresh.map (fun sha => ((sha, repoId) : Option String × Nat))).countP
      (fun pr => decide (pr = (s, repoId)))
      = fresh.countP (fun x => decide (x = s)) := by
    rw [List.countP_map]
    apply List.countP_congr
    intro x _
    simp [Function.comp, Prod.ext_iff]
  rw [h1, hmap, h2]

/-- Characterization of `alreadyStored` in terms of counting. -/
theorem alreadyStored_iff_countP_pos (repoId : Nat) (stored : List StoredCommit)
    (s : Option String) :
    alreadyStored repoId stored s = true
      ↔ 0 < stored.countP (fun c => decide (c.sha = s ∧ c.repository_id = repoId)) := by
  unfold alreadyStored
  rw [List.find?_isSome, List.countP_pos_iff]

/-- C1: ingesting the same commit SHA for the same repository twice leaves
exactly one stored row: a run whose listing contains a SHA that is not yet
stored stores it once, and any later run sees it as already stored — it is
silently skipped (no detail fetch, no new row) and not counted, `processed`
counting only the entries that were not already stored. -/
theorem c1_ingest_unique_sha (repoId : Nat) (detail : Option String → RawCommitData)
    (stored : List StoredCommit) (devs : List DeveloperRow) (nextDevId : Nat)
    (listing listing₂ : List (Option String)) (s : Option String)
    (hdetail : ∀ x, (detail x).sha = x)
    (hnodup : listing.Nodup) (hnodup₂ : listing₂.Nodup)
    (hs : s ∈ listing) (hs₂ : s ∈ listing₂)
    (h0 : stored.countP (fun c => decide (c.sha = s ∧ c.repository_id = repoId)) = 0) :
    (ingest repoId detail stored devs nextDevId listing).stored.countP
        (fun c => decide (c.sha = s ∧ c.repository_id = repoId)) = 1 ∧
    (ingest repoId detail (ingest repoId detail stored devs nextDevId listing).stored
        (ingest repoId detail stored devs nextDevId listing).devs
        (ingest repoId detail stored devs nextDevId listing).nextDevId listing₂).stored.countP
        (fun c => decide (c.sha = s ∧ c.repository_id = repoId)) = 1 ∧
    alreadyStored repoId (ingest repoId detail stored devs nextDevId listing).stored s = true ∧
    s ∉ (ingest repoId detail (ingest repoId detail stored devs nextDevId listing).stored
        (ingest repoId detail stored devs nextDevId listing).devs
        (ingest repoId detail stored devs nextDevId listing).nextDevId listing₂).fetched ∧
    (ingest repoId detail stored devs nextDevId listing).processed
      = (freshShas repoId stored listing).length ∧
    (ingest repoId detail (ingest repoId detail stored devs nextDevId listing).stored
        (ingest repoId detail stored devs nextDevId listing).devs
        (ingest repoId detail stored devs nextDevId listing).nextDevId listing₂).processed
      = (freshShas repoId (ingest repoId detail stored devs nextDevId listing).stored
          listing₂).length := by
  have hnotstored : alreadyStored repoId stored s = false := by
    rw [Bool.eq_false_iff]
    intro hcon
    rw [alreadyStored_iff_countP_pos] at hcon
    omega
  obtain ⟨hf1, hp1, hm1⟩ :=
    ingest_foldl_decomp repoId detail stored hdetail listing ⟨[], devs, nextDevId, [], 0⟩
  have hr1stored : (ingest repoId detail stored devs nextDevId listing).stored
      = stored ++ (listing.foldl (ingestStep repoId detail stored)
          ⟨[], devs, nextDevId, [], 0⟩).staged := rfl
  have hsfresh : s ∈ freshShas repoId stored listing :=
    List.mem_filter.mpr ⟨hs, by simp [hnotstored]⟩
  have hfreshnodup : (freshShas repoId stored listing).Nodup :=
    hnodup.sublist (List.filter_sublist _)
  have hcnt1 : (freshShas repoId stored listing).countP (fun x => decide (x = s)) = 1 :=
    countP_eq_one_of_nodup_mem _ hfreshnodup s hsfresh
  have hstagedmap : (listing.foldl (ingestStep repoId detail stored)
        ⟨[], devs, nextDevId, [], 0⟩).staged.map (fun c => (c.sha, c.repository_id))
      = (freshShas repoId stored listing).map (fun sha => (sha, repoId)) := by
    rw [hm1]
    simp
  have hcount1 : (ingest repoId detail stored devs nextDevId listing).stored.countP
      (fun c => decide (c.sha = s ∧ c.repository_id = repoId)) = 1 := by
    rw [hr1stored, List.countP_append, h0,
      countP_staged_by_key repoId _ _ s hstagedmap, hcnt1]
  have hstored2 : alreadyStored repoId
      (ingest repoId detail stored devs nextDevId listing).stored s = true := by
    rw [alreadyStored_iff_countP_pos, hcount1]
    omega
  obtain ⟨hf2, hp2, hm2⟩ := ingest_foldl_decomp repoId detail
    (ingest repoId detail stored devs nextDevId listing).stored hdetail listing₂
    ⟨[], (ingest repoId detail stored devs nextDevId listing).devs,
      (ingest repoId detail stored devs nextDevId listing).nextDevId, [], 0⟩
  have hsnotfresh2 : s ∉ freshShas repoId
      (ingest repoId detail stored devs nextDevId listing).stored listing₂ := by
    intro hcon
    have := (List.mem_filter.mp hcon).2
    rw [hstored2] at this
    simp at this
  refine ⟨hcount1, ?_, hstored2, ?_, ?_, ?_⟩
  · have hr2stored : (ingest repoId detail
        (ingest repoId detail stored devs nextDevId listing).stored
        (ingest repoId detail stored devs nextDevId listing).devs
        (ingest repoId detail stored devs nextDevId listing).nextDevId listing₂).stored
      = (ingest repoId detail stored devs nextDevId listing).stored
        ++ (listing₂.foldl (ingestStep repoId detail
              (ingest repoId detail stored devs nextDevId listing).stored)
            ⟨[], (ingest repoId detail stored devs nextDevId listing).devs,
              (ingest repoId detail stored devs nextDevId listing).nextDevId, [], 0⟩).staged :=
      rfl
    have hstagedmap2 : (listing₂.foldl (ingestStep repoId detail
          (ingest repoId detail stored devs nextDevId listing).stored)
          ⟨[], (ingest repoId detail stored devs nextDevId listing).devs,
            (ingest repoId detail stored devs nextDevId listing).nextDevId, [], 0⟩).staged.map
          (fun c => (c.sha, c.repository_id))
        = (freshShas repoId (ingest repoId detail stored devs nextDevId listing).stored
            listing₂).map (fun sha => (sha, repoId)) := by
      rw [hm2]
      simp
    have hcnt2 : (freshShas repoId
          (ingest repoId detail stored devs nextDevId listing).stored listing₂).countP
        (fun x => decide (x = s)) = 0 := by
      rw [List.countP_eq_zero]
      intro x hx
      simp only [decide_eq_true_eq]
      intro hxs
      exact hsnotfresh2 (hxs ▸ hx)
    rw [hr2stored, List.countP_append, hcount1,
      countP_staged_by_key repoId _ _ s hstagedmap2, hcnt2]
  · show s ∉ (listing₂.foldl (ingestStep repoId detail
        (ingest repoId detail stored devs nextDevId listing).stored)
        ⟨[], (ingest repoId detail stored devs nextDevId listing).devs,
          (ingest repoId detail stored devs nextDevId listing).nextDevId, [], 0⟩).fetched
    rw [hf2]
    intro hcon
    rcases List.mem_append.mp hcon with h | h
    · cases h
    · exact hsnotfresh2 h
  · show (listing.foldl (ingestStep repoId detail stored)
        ⟨[], devs, nextDevId, [], 0⟩).processed = _
    rw [hp1]
    simp
  · show (listing₂.foldl (ingestStep repoId detail
        (ingest repoId detail stored devs nextDevId listing).stored)
        ⟨[], (ingest repoId detail stored devs nextDevId listing).devs,
          (ingest repoId detail stored devs nextDevId listing).nextDevId, [], 0⟩).processed = _
    rw [hp2]
    simp

/-- A concrete remote detail endpoint: returns a minimal commit payload
carrying the SHA that was asked for. -/
def c1detail : Option String → RawCommitData := fun sha =>
  { sha := sha
    commit :=
      { message := some "m"
        author := { name := some "Ada", email := some "ada@example.com",
                    date := some "2024-06-05T10:20:30Z" }
        committer := { name := some "Ada", email := some "ada@example.com",
                       date := some "2024-06-05T10:20:30Z" } }
    files := []
    parents := [] }

/-- First listing of the C1 witness: SHAs a and b, neither stored yet. -/
def c1listing : List (Option String) := [some "a", some "b"]

/-- Second listing of the C1 witness: SHA a again, plus the new SHA c. -/
def c1listing2 : List (Option String) := [some "a", some "c"]

/-- First ingestion run of the C1 witness (empty repository 1). -/
def c1run1 : IngestResult := ingest 1 c1detail [] [] 1 c1listing

/-- Second ingestion run of the C1 witness, on the state the first left. -/
def c1run2 : IngestResult :=
  ingest 1 c1detail c1run1.stored c1run1.devs c1run1.nextDevId c1listing2

/-- C1 witness: after ingesting SHA a twice (2 + 2-element listings sharing
it), exactly one row for (a, repo 1) exists, the second run fetches no
detail for it and counts only the genuinely new SHA c
(`processed = 2` then `processed = 1`). -/
theorem c1_ingest_unique_sha_witness :
    (c1run1.stored.countP (fun c => decide (c.sha = some "a" ∧ c.repository_id = 1)) = 1 ∧
      c1run2.stored.countP (fun c => decide (c.sha = some "a" ∧ c.repository_id = 1)) = 1 ∧
      alreadyStored 1 c1run1.stored (some "a") = true ∧
      (some "a") ∉ c1run2.fetched ∧
      c1run1.processed = (freshShas 1 [] c1listing).length ∧
      c1run2.processed = (freshShas 1 c1run1.stored c1listing2).length) ∧
    c1run1.processed = 2 ∧ c1run2.processed = 1 :=
  ⟨c1_ingest_unique_sha 1 c1detail [] [] 1 c1listing c1listing2 (some "a")
      (fun _ => rfl) (by decide) (by decide) (by decide) (by decide) (by decide),
    by decide, by decide⟩

/-! ### Sync progress reporting (C7)

`sync_repository` reports progress 0 and 10 (tasks.py 28, 39),
`_sync_github_repository` reports 20, 30, 40 (lines 81, 91, 100), then
`40 + int((processed / total_commits) * 50)` once per newly stored commit
(line 145, embedded with natural floor division), then 95 (line 156).  When
the task finishes, its Celery state becomes SUCCESS and the task-status
endpoint reports progress 100 for it (`get_task_status`,
src/backend/app/api/tasks.py: `elif result.status == 'SUCCESS': ...
response["progress"] = 100`). -/

/-- The progress the task-status endpoint reports for a successfully
finished task (api/tasks.py, `get_task_status`, SUCCESS branch). -/
def successProgress : Nat := 100

/-- Processed counter and emitted in-loop progress values. -/
structure TraceAcc where
  processed : Nat
  trace : List Nat
  deriving Repr, DecidableEq

/-- One iteration of the ingestion loop, tracking only the skip decision,
the processed counter and the emitted progress value. -/
def traceStep (repoId : Nat) (stored : List StoredCommit) (total : Nat)
    (acc : TraceAcc) (sha : Option String) : TraceAcc :=
  if alreadyStored repoId stored sha then acc
  else
    { processed := acc.processed + 1
      trace := acc.trace ++ [40 + (acc.processed + 1) * 50 / total] }

/-- The progress values emitted inside the per-commit loop of one run. -/
def ingestLoopTrace (repoId : Nat) (stored : List StoredCommit)
    (listing : List (Option String)) : List Nat :=
  (listing.foldl (traceStep repoId stored listing.length) ⟨0, []⟩).trace

/-- The full sequence of progress values observable for a successful
ingestion run: the five setup milestones, the per-commit values, the
finalize milestone, and the SUCCESS value reported by the status
endpoint. -/
def syncProgressTrace (repoId : Nat) (stored : List StoredCommit)
    (listing : List (Option String)) : List Nat :=
  [0, 10, 20, 30, 40] ++ ingestLoopTrace repoId stored listing ++ [95, successProgress]

theorem traceStep_foldl (repoId : Nat) (stored : List StoredCommit) (total : Nat) :
    ∀ (listing : List (Option String)) (acc : TraceAcc),
      (listing.foldl (traceStep repoId stored total) acc).processed
          = acc.processed + (freshShas repoId stored listing).length ∧
      (listing.foldl (traceStep repoId stored total) acc).trace
          = acc.trace ++ (List.range' (acc.processed + 1)
              (freshShas repoId stored listing).length).map
              (fun p => 40 + p * 50 / total) := by
  intro listing
  induction listing with
  | nil =>
    intro acc
    simp [freshShas]
  | cons sha rest ih =>
    intro acc
    rw [List.foldl_cons]
    by_cases hk : alreadyStored repoId stored sha
    · have hstep : traceStep repoId stored total acc sha = acc := by
        simp [traceStep, hk]
      have hfresh : freshShas repoId stored (sha :: rest) = freshShas repoId stored rest := by
        simp [freshShas, List.filter_cons, hk]
      rw [hstep, hfresh]
      exact ih acc
    · have hstep : traceStep repoId stored total acc sha =
          { processed := acc.processed + 1
            trace := acc.trace ++ [40 + (acc.processed + 1) * 50 / total] } := by
        simp [traceStep, hk]
      have hfresh : freshShas repoId stored (sha :: rest)
          = sha :: freshShas repoId stored rest := by
        simp [freshShas, List.filter_cons, hk]
      rw [hstep, hfresh]
      obtain ⟨ih1, ih2⟩ := ih
        { processed := acc.processed + 1,
          trace := acc.trace ++ [40 + (acc.processed + 1) * 50 / total] }
      refine ⟨?_, ?_⟩
      · rw [ih1]
        simp only [List.length_cons]
        omega
      · rw [ih2]
        simp only [List.length_cons, List.range'_succ, List.map_cons, List.append_assoc,
          List.singleton_append]

/-- The in-loop trace in closed form: one value per newly stored commit,
linearly interpolated on the 40-90 band by `processed / total`. -/
theorem ingestLoopTrace_eq (repoId : Nat) (stored : List StoredCommit)
    (listing : List (Option String)) :
    ingestLoopTrace repoId stored listing
      = (List.range' 1 (freshShas repoId stored listing).length).map
          (fun p => 40 + p * 50 / listing.length) := by
  have h := (traceStep_foldl repoId stored listing.length listing ⟨0, []⟩).2
  simpa [ingestLoopTrace] using h

/-- A monotone map over a consecutive range is non-decreasing. -/
theorem chain'_le_map_range' (f : Nat → Nat) (hf : ∀ a b, a ≤ b → f a ≤ f b) :
    ∀ (n a : Nat), List.Chain' (fun x y => x ≤ y) ((List.range' a n).map f) := by
  intro n
  induction n with
  | zero => intro a; simp
  | succ m ih =>
    intro a
    rw [List.range'_succ, List.map_cons, List.chain'_cons']
    refine ⟨?_, ih (a + 1)⟩
    intro y hy
    cases m with
    | zero => simp at hy
    | succ k =>
      rw [List.range'_succ, List.map_cons] at hy
      simp only [List.head?_cons, Option.mem_def, Option.some.injEq] at hy
      rw [← hy]
      exact hf a (a + 1) (by omega)

/-- C7: for every ingestion run, the observable progress sequence is
non-decreasing and ends at 100 on success (the task's own final update is
95, and the SUCCESS state is reported as 100 by the status endpoint); the
per-commit values are `40 + processed * 50 / total` for
`processed = 1, …, #new`, all within the 40-90 band. -/
theorem c7_progress_monotone_final_100 (repoId : Nat) (stored : List StoredCommit)
    (listing : List (Option String)) :
    List.Chain' (fun x y => x ≤ y) (syncProgressTrace repoId stored listing) ∧
    (syncProgressTrace repoId stored listing).getLast? = some 100 ∧
    syncProgressTrace repoId stored listing
      = [0, 10, 20, 30, 40]
        ++ (List.range' 1 (freshShas repoId stored listing).length).map
            (fun p => 40 + p * 50 / listing.length)
        ++ [95, successProgress] ∧
    (∀ v ∈ ingestLoopTrace repoId stored listing, 40 ≤ v ∧ v ≤ 90) := by
  have hloop := ingestLoopTrace_eq repoId stored listing
  have hlen : (freshShas repoId stored listing).length ≤ listing.length :=
    List.length_filter_le _ _
  have hbounds : ∀ v ∈ ingestLoopTrace repoId stored listing, 40 ≤ v ∧ v ≤ 90 := by
    intro v hv
    rw [hloop] at hv
    obtain ⟨p, hp, rfl⟩ := List.mem_map.mp hv
    rw [List.mem_range'_1] at hp
    refine ⟨Nat.le_add_right 40 _, ?_⟩
    have hple : p ≤ listing.length := by omega
    have hpos : 0 < listing.length := by omega
    have h1 : p * 50 ≤ listing.length * 50 := Nat.mul_le_mul_right 50 hple
    have h2 : p * 50 / listing.length ≤ listing.length * 50 / listing.length :=
      Nat.div_le_div_right h1
    have h3 : listing.length * 50 / listing.length = 50 := by
      rw [Nat.mul_comm]
      exact Nat.mul_div_cancel 50 hpos
    omega
  have hchainB : List.Chain' (fun x y => x ≤ y) (ingestLoopTrace repoId stored listing) := by
    rw [hloop]
    apply chain'_le_map_range'
    intro a b hab
    have h : a * 50 / listing.length ≤ b * 50 / listing.length :=
      Nat.div_le_div_right (Nat.mul_le_mul_right 50 hab)
    omega
  have hchainA : List.Chain' (fun x y => x ≤ y) ([0, 10, 20, 30, 40] : List Nat) := by
    simp [List.chain'_cons]
  have hchainC : List.Chain' (fun x y => x ≤ y) ([95, successProgress] : List Nat) := by
    simp [successProgress, List.chain'_cons]
  have hchain : List.Chain' (fun x y => x ≤ y) (syncProgressTrace repoId stored listing) := by
    have hassoc : syncProgressTrace repoId stored listing
        = [0, 10, 20, 30, 40]
          ++ (ingestLoopTrace repoId stored listing ++ [95, successProgress]) := by
      simp [syncProgressTrace, List.append_assoc]
    rw [hassoc]
    rw [List.chain'_append]
    refine ⟨hchainA, ?_, ?_⟩
    · rw [List.chain'_append]
      refine ⟨hchainB, hchainC, ?_⟩
      intro x hx y hy
      have hxmem : x ∈ ingestLoopTrace repoId stored listing := by
        simp only [Option.mem_def] at hx
        exact List.mem_of_getLast?_eq_some hx
      have hxb := (hbounds x hxmem).2
      have hy95 : 95 = y := by
        simpa using hy
      omega
    · intro x hx y hy
      have h40 : ([0, 10, 20, 30, 40] : List Nat).getLast? = some 40 := rfl
      rw [h40] at hx
      simp only [Option.mem_def, Option.some.injEq] at hx
      subst hx
      cases hB : ingestLoopTrace repoId stored listing with
      | nil =>
        rw [hB] at hy
        have h95 : (([] : List Nat) ++ [95, successProgress]).head? = some 95 := rfl
        rw [h95] at hy
        simp only [Option.mem_def, Option.some.injEq] at hy
        omega
      | cons v rest =>
        rw [hB] at hy
        simp only [List.cons_append, List.head?_cons, Option.mem_def, Option.some.injEq] at hy
        have hvb := (hbounds v (by rw [hB]; exact List.mem_cons_self v rest)).1
        omega
  have hlast : (syncProgressTrace repoId stored listing).getLast? = some 100 := by
    have hassoc : syncProgressTrace repoId stored listing
        = ([0, 10, 20, 30, 40] ++ ingestLoopTrace repoId stored listing ++ [95])
          ++ [successProgress] := by
      simp [syncProgressTrace, List.append_assoc]
    rw [hassoc, List.getLast?_concat]
    rfl
  refine ⟨hchain, hlast, ?_, hbounds⟩
  simp [syncProgressTrace, hloop]

/-! ### Selection promotion (`sync_selected_repositories`, api/github.py lines 355-426)

The endpoint snapshots the account's selections with status `selected` and
no linked Repository (`repository_id IS NULL`), then for each: looks up an
existing Repository by `(url, owner)`, linking to it if found; otherwise
creates a new Repository with `sync_status = "pending"`, flushes it (so
later lookups in the same run see it), links the selection, marks it
`synced`, enqueues a background sync, and counts it.  The link-existing
branch does not increment the counter (api/github.py lines 418-421). -/

/-- The state the promotion endpoint manipulates: the repositories table,
the selections table, the repository autoincrement counter, and the ids
handed to `sync_repository.delay`. -/
structure PromoState where
  repos : List Repository
  sels : List Selection
  nextRepoId : Nat
  enqueued : List Nat
  deriving Repr, DecidableEq

/-- The `Repository(...)` constructor call of the create branch
(api/github.py lines 391-404). -/
def newRepoFromSelection (rid userId : Nat) (s : Selection) : Repository :=
  { id := rid
    name := s.name
    full_name := s.full_name
    url := s.url
    clone_url := s.clone_url
    external_id := toString s.github_repo_id
    description := s.description
    default_branch := s.default_branch
    is_private := s.is_private
    owner_id := userId
    sync_status := "pending"
    sync_error := none
    last_synced_at := none }

/-- Link a selection row to a repository and mark it `synced`
(`selection.repository_id = ...; selection.status = SYNCED`). -/
def linkSelection (sels : List Selection) (selId rid : Nat) : List Selection :=
  sels.map (fun t =>
    if t.id = selId then { t with repository_id := some rid, status := .synced } else t)

/-- The `selected and not yet synced` snapshot the endpoint iterates
(api/github.py lines 373-378). -/
def promoteSnapshot (uid : Nat) (st : PromoState) : List Selection :=
  st.sels.filter (fun s => decide (s.github_user_id = some uid
    ∧ s.status = SelectionStatus.selected ∧ s.repository_id = none))

/-- The `for selection in selected_repos` loop, returning the final state
and `synced_count` (which counts only the create branch). -/
def promoteLoop (userId : Nat) : List Selection → PromoState → PromoState × Nat
  | [], st => (st, 0)
  | sel :: rest, st =>
    match st.repos.find? (fun r => decide (r.url = sel.url ∧ r.owner_id = userId)) with
    | some r =>
      promoteLoop userId rest { st with sels := linkSelection st.sels sel.id r.id }
    | none =>
      let rid := st.nextRepoId
      let res := promoteLoop userId rest
        { st with
          repos := st.repos ++ [newRepoFromSelection rid userId sel]
          nextRepoId := rid + 1
          sels := linkSelection st.sels sel.id rid
          enqueued := st.enqueued ++ [rid] }
      (res.1, res.2 + 1)

/-- The endpoint `sync_selected_repositories` restricted to its promotion core. -/
def promote (userId uid : Nat) (st : PromoState) : PromoState × Nat :=
  promoteLoop userId (promoteSnapshot uid st) st

theorem linkSelection_map_id (sels : List Selection) (selId rid : Nat) :
    (linkSelection sels selId rid).map (fun s => s.id) = sels.map (fun s => s.id) := by
  unfold linkSelection
  rw [List.map_map]
  apply List.map_congr_left
  intro t _
  by_cases ht : t.id = selId <;> simp [Function.comp, ht]

/-- The loop never touches selection row ids. -/
theorem promoteLoop_sels_map_id (userId : Nat) :
    ∀ (todo : List Selection) (st : PromoState),
      ((promoteLoop userId todo st).1.sels).map (fun s => s.id)
        = st.sels.map (fun s => s.id) := by
  intro todo
  induction todo with
  | nil => intro st; rfl
  | cons sel rest ih =>
    intro st
    unfold promoteLoop
    cases hf : st.repos.find? (fun r => decide (r.url = sel.url ∧ r.owner_id = userId)) with
    | some r =>
      rw [ih]
      exact linkSelection_map_id st.sels sel.id r.id
    | none =>
      show ((promoteLoop userId rest _).1.sels).map _ = _
      rw [ih]
      exact linkSelection_map_id st.sels sel.id st.nextRepoId

/-- The loop only appends to the repositories table. -/
theorem promoteLoop_repos_prefix (userId : Nat) :
    ∀ (todo : List Selection) (st : PromoState),
      ∃ suffix, (promoteLoop userId todo st).1.repos = st.repos ++ suffix := by
  intro todo
  induction todo with
  | nil => intro st; exact ⟨[], by simp [promoteLoop]⟩
  | cons sel rest ih =>
    intro st
    unfold promoteLoop
    cases hf : st.repos.find? (fun r => decide (r.url = sel.url ∧ r.owner_id = userId)) with
    | some r => exact ih _
    | none =>
      obtain ⟨suffix, hsuf⟩ := ih
        { st with
          repos := st.repos ++ [newRepoFromSelection st.nextRepoId userId sel]
          nextRepoId := st.nextRepoId + 1
          sels := linkSelection st.sels sel.id st.nextRepoId
          enqueued := st.enqueued ++ [st.nextRepoId] }
      exact ⟨newRepoFromSelection st.nextRepoId userId sel :: suffix, by
        show (promoteLoop userId rest _).1.repos = _
        rw [hsuf]
        simp⟩

/-- A selection row whose id is not among the remaining work items survives
the loop untouched. -/
theorem promoteLoop_preserves_row (userId : Nat) :
    ∀ (todo : List Selection) (st : PromoState) (t : Selection),
      t ∈ st.sels → t.id ∉ todo.map (fun s => s.id) →
      t ∈ (promoteLoop userId todo st).1.sels := by
  intro todo
  induction todo with
  | nil => intro st t ht _; exact ht
  | cons sel rest ih =>
    intro st t ht hid
    have hne : ¬(t.id = sel.id) := by
      intro he
      exact hid (by simp [he])
    have hrest : t.id ∉ rest.map (fun s => s.id) := by
      intro hcon
      exact hid (by simp [hcon])
    have hlink : ∀ rid, t ∈ linkSelection st.sels sel.id rid := by
      intro rid
      have heq : (fun u => if u.id = sel.id
          then { u with repository_id := some rid, status := SelectionStatus.synced }
          else u) t = t := by
        simp [hne]
      have hmem := List.mem_map_of_mem (fun u => if u.id = sel.id
          then { u with repository_id := some rid, status := SelectionStatus.synced }
          else u) ht
      rw [heq] at hmem
      exact hmem
    unfold promoteLoop
    cases hf : st.repos.find? (fun r => decide (r.url = sel.url ∧ r.owner_id = userId)) with
    | some r => exact ih _ t (hlink r.id) hrest
    | none =>
      show t ∈ (promoteLoop userId rest _).1.sels
      exact ih _ t (hlink st.nextRepoId) hrest

/-- The loop keeps repository ids unique and below the autoincrement
counter. -/
theorem promoteLoop_repos_invariant (userId : Nat) :
    ∀ (todo : List Selection) (st : PromoState),
      (st.repos.map (fun r => r.id)).Nodup → (∀ r ∈ st.repos, r.id < st.nextRepoId) →
      (((promoteLoop userId todo st).1.repos).map (fun r => r.id)).Nodup ∧
      (∀ r ∈ (promoteLoop userId todo st).1.repos,
        r.id < (promoteLoop userId todo st).1.nextRepoId) ∧
      st.nextRepoId ≤ (promoteLoop userId todo st).1.nextRepoId := by
  intro todo
  induction todo with
  | nil =>
    intro st h1 h2
    exact ⟨h1, h2, Nat.le_refl _⟩
  | cons sel rest ih =>
    intro st h1 h2
    unfold promoteLoop
    cases hf : st.repos.find? (fun r => decide (r.url = sel.url ∧ r.owner_id = userId)) with
    | some r =>
      exact ih { st with sels := linkSelection st.sels sel.id r.id } h1 h2
    | none =>
      have h1' : ((st.repos ++ [newRepoFromSelection st.nextRepoId userId sel]).map
          (fun r => r.id)).Nodup := by
        rw [List.map_append, List.nodup_append]
        refine ⟨h1, by simp, ?_⟩
        intro a ha hb
        obtain ⟨r0, hr0, rfl⟩ := List.mem_map.mp ha
        have hlt := h2 r0 hr0
        simp only [List.map_cons, List.map_nil, List.mem_cons, List.not_mem_nil,
          or_false] at hb
        rw [hb] at hlt
        exact absurd hlt (by
          show ¬(newRepoFromSelection st.nextRepoId userId sel).id
            < st.nextRepoId
          show ¬st.nextRepoId < st.nextRepoId
          omega)
      have h2' : ∀ r ∈ st.repos ++ [newRepoFromSelection st.nextRepoId userId sel],
          r.id < st.nextRepoId + 1 := by
        intro r hr
        rcases List.mem_append.mp hr with h | h
        · have := h2 r h
          omega
        · simp only [List.mem_cons, List.not_mem_nil, or_false] at h
          rw [h]
          show st.nextRepoId < st.nextRepoId + 1
          omega
      obtain ⟨g1, g2, g3⟩ := ih
        { st with
          repos := st.repos ++ [newRepoFromSelection st.nextRepoId userId sel]
          nextRepoId := st.nextRepoId + 1
          sels := linkSelection st.sels sel.id st.nextRepoId
          enqueued := st.enqueued ++ [st.nextRepoId] } h1' h2'
      exact ⟨g1, g2, Nat.le_trans (Nat.le_succ st.nextRepoId) g3⟩

/-- The image of a selection row under the link-and-mark-synced update. -/
def syncedLink (row : Selection) (rid : Nat) : Selection :=
  { row with repository_id := some rid, status := SelectionStatus.synced }

/-- Every work item ends the loop as a `synced` selection row linked to a
repository that exists in the final table. -/
theorem promoteLoop_processes (userId : Nat) :
    ∀ (todo : List Selection) (st : PromoState),
      ((st.sels.map (fun s => s.id)).Nodup) →
      ((todo.map (fun s => s.id)).Nodup) →
      (∀ s ∈ todo, s.id ∈ st.sels.map (fun x => x.id)) →
      ∀ sel ∈ todo, ∃ t ∈ (promoteLoop userId todo st).1.sels,
        t.id = sel.id ∧ t.status = SelectionStatus.synced ∧
        ∃ rid, t.repository_id = some rid
          ∧ rid ∈ ((promoteLoop userId todo st).1.repos).map (fun r => r.id) := by
  intro todo
  induction todo with
  | nil =>
    intro st _ _ _ sel hsel
    cases hsel
  | cons selh rest ih =>
    intro st hsids htodo hex sel hsel
    have hrestids : (rest.map (fun s => s.id)).Nodup := by
      simp only [List.map_cons, List.nodup_cons] at htodo
      exact htodo.2
    have hheadnot : selh.id ∉ rest.map (fun s => s.id) := by
      simp only [List.map_cons, List.nodup_cons] at htodo
      exact htodo.1
    rcases List.mem_cons.mp hsel with rfl | hselrest
    · -- sel is the head item
      obtain ⟨row, hrow, hrowid⟩ : ∃ row ∈ st.sels, row.id = sel.id := by
        have := hex sel (List.mem_cons_self sel rest)
        obtain ⟨row, hrow, hid⟩ := List.mem_map.mp this
        exact ⟨row, hrow, hid⟩
      have hupd : ∀ rid, syncedLink row rid ∈ linkSelection st.sels sel.id rid := by
        intro rid
        have heq : (fun u => if u.id = sel.id
            then { u with repository_id := some rid, status := SelectionStatus.synced }
            else u) row = syncedLink row rid := by
          simp [hrowid, syncedLink]
        have hmem := List.mem_map_of_mem (fun u => if u.id = sel.id
            then { u with repository_id := some rid, status := SelectionStatus.synced }
            else u) hrow
        rw [heq] at hmem
        exact hmem
      unfold promoteLoop
      cases hf : st.repos.find? (fun r => decide (r.url = sel.url ∧ r.owner_id = userId)) with
      | some r =>
        have hrmem : r ∈ st.repos := List.mem_of_find?_eq_some hf
        refine ⟨syncedLink row r.id,
          ?_, by simp [syncedLink, hrowid], by simp [syncedLink], r.id,
          by simp [syncedLink], ?_⟩
        · apply promoteLoop_preserves_row userId rest _ _ (hupd r.id)
          show (syncedLink row r.id).id ∉ List.map (fun s => s.id) rest
          show row.id ∉ List.map (fun s => s.id) rest
          rw [hrowid]
          exact hheadnot
        · obtain ⟨suffix, hsuf⟩ := promoteLoop_repos_prefix userId rest
            { st with sels := linkSelection st.sels sel.id r.id }
          rw [hsuf, List.map_append]
          exact List.mem_append_left _ (List.mem_map_of_mem _ hrmem)
      | none =>
        refine ⟨syncedLink row st.nextRepoId, ?_, by simp [syncedLink, hrowid],
          by simp [syncedLink], st.nextRepoId, by simp [syncedLink], ?_⟩
        · show _ ∈ (promoteLoop userId rest _).1.sels
          apply promoteLoop_preserves_row userId rest _ _ (hupd st.nextRepoId)
          show (syncedLink row st.nextRepoId).id ∉ List.map (fun s => s.id) rest
          show row.id ∉ List.map (fun s => s.id) rest
          rw [hrowid]
          exact hheadnot
        · show st.nextRepoId ∈ ((promoteLoop userId rest _).1.repos).map (fun r => r.id)
          obtain ⟨suffix, hsuf⟩ := promoteLoop_repos_prefix userId rest
            { st with
              repos := st.repos ++ [newRepoFromSelection st.nextRepoId userId sel]
              nextRepoId := st.nextRepoId + 1
              sels := linkSelection st.sels sel.id st.nextRepoId
              enqueued := st.enqueued ++ [st.nextRepoId] }
          rw [hsuf, List.map_append]
          apply List.mem_append_left
          rw [List.map_append]
          apply List.mem_append_right
          simp [newRepoFromSelection]
    · -- sel is in the tail
      cases hf : st.repos.find? (fun r => decide (r.url = selh.url ∧ r.owner_id = userId)) with
      | some r =>
        have hstep : promoteLoop userId (selh :: rest) st
            = promoteLoop userId rest
                { st with sels := linkSelection st.sels selh.id r.id } := by
          simp only [promoteLoop]
          rw [hf]
        rw [hstep]
        apply ih _ ?_ hrestids ?_ sel hselrest
        · show (List.map (fun s => s.id) (linkSelection st.sels selh.id r.id)).Nodup
          rw [linkSelection_map_id]
          exact hsids
        · intro s hs
          show s.id ∈ List.map (fun x => x.id) (linkSelection st.sels selh.id r.id)
          rw [linkSelection_map_id]
          exact hex s (List.mem_cons_of_mem selh hs)
      | none =>
        have hstep : (promoteLoop userId (selh :: rest) st).1
            = (promoteLoop userId rest
                { st with
                  repos := st.repos ++ [newRepoFromSelection st.nextRepoId userId selh]
                  nextRepoId := st.nextRepoId + 1
                  sels := linkSelection st.sels selh.id st.nextRepoId
                  enqueued := st.enqueued ++ [st.nextRepoId] }).1 := by
          simp only [promoteLoop]
          rw [hf]
        rw [hstep]
        apply ih _ ?_ hrestids ?_ sel hselrest
        · show (List.map (fun s => s.id)
            (linkSelection st.sels selh.id st.nextRepoId)).Nodup
          rw [linkSelection_map_id]
          exact hsids
        · intro s hs
          show s.id ∈ List.map (fun x => x.id)
            (linkSelection st.sels selh.id st.nextRepoId)
          rw [linkSelection_map_id]
          exact hex s (List.mem_cons_of_mem selh hs)

/-- When a repository with a given `(url, owner)` already exists, the loop
never creates another one for that pair: any selection with that url takes
the link-existing branch. -/
theorem promoteLoop_url_count (userId : Nat) :
    ∀ (todo : List Selection) (st : PromoState) (u : String),
      (∃ r ∈ st.repos, r.url = u ∧ r.owner_id = userId) →
      ((promoteLoop userId todo st).1.repos).countP
          (fun r => decide (r.url = u ∧ r.owner_id = userId))
        = st.repos.countP (fun r => decide (r.url = u ∧ r.owner_id = userId)) := by
  intro todo
  induction todo with
  | nil => intro st u _; rfl
  | cons sel rest ih =>
    intro st u hex
    cases hf : st.repos.find? (fun r => decide (r.url = sel.url ∧ r.owner_id = userId)) with
    | some r =>
      have hstep : promoteLoop userId (sel :: rest) st
          = promoteLoop userId rest
              { st with sels := linkSelection st.sels sel.id r.id } := by
        simp only [promoteLoop]
        rw [hf]
      rw [hstep]
      exact ih _ u hex
    | none =>
      obtain ⟨r0, hr0, hu0, ho0⟩ := hex
      have hne : ¬(sel.url = u) := by
        intro he
        have hnp := List.find?_eq_none.mp hf r0 hr0
        simp only [decide_eq_true_eq, not_and] at hnp
        exact hnp (by rw [hu0, he]) ho0
      have hstep : (promoteLoop userId (sel :: rest) st).1
          = (promoteLoop userId rest
              { st with
                repos := st.repos ++ [newRepoFromSelection st.nextRepoId userId sel]
                nextRepoId := st.nextRepoId + 1
                sels := linkSelection st.sels sel.id st.nextRepoId
                enqueued := st.enqueued ++ [st.nextRepoId] }).1 := by
        simp only [promoteLoop]
        rw [hf]
      rw [hstep]
      have hex2 : ∃ r ∈ st.repos ++ [newRepoFromSelection st.nextRepoId userId sel],
          r.url = u ∧ r.owner_id = userId :=
        ⟨r0, List.mem_append_left _ hr0, hu0, ho0⟩
      rw [ih _ u hex2]
      show (st.repos ++ [newRepoFromSelection st.nextRepoId userId sel]).countP _ = _
      rw [List.countP_append]
      have hzero : List.countP (fun r => decide (r.url = u ∧ r.owner_id = userId))
          [newRepoFromSelection st.nextRepoId userId sel] = 0 := by
        rw [List.countP_eq_zero]
        intro x hx
        simp only [List.mem_singleton] at hx
        subst hx
        have hurl : (newRepoFromSelection st.nextRepoId userId sel).url = sel.url := rfl
        simp [hurl, hne]
      rw [hzero]
      omega

/-- After a promotion run, no selection of the account is still
`selected`-and-unlinked: the run's snapshot empties. -/
theorem promote_snapshot_empty (userId uid : Nat) (st : PromoState)
    (hsids : (st.sels.map (fun s => s.id)).Nodup) :
    promoteSnapshot uid (promote userId uid st).1 = [] := by
  unfold promoteSnapshot
  rw [List.filter_eq_nil_iff]
  intro t ht
  have hids1 : (((promote userId uid st).1.sels).map (fun s => s.id)).Nodup := by
    unfold promote
    rw [promoteLoop_sels_map_id]
    exact hsids
  have hidorig : t.id ∈ st.sels.map (fun s => s.id) := by
    have h1 : t.id ∈ ((promote userId uid st).1.sels).map (fun s => s.id) :=
      List.mem_map_of_mem _ ht
    have h2 : ((promote userId uid st).1.sels).map (fun s => s.id)
        = st.sels.map (fun s => s.id) := by
      unfold promote
      exact promoteLoop_sels_map_id userId _ st
    rw [h2] at h1
    exact h1
  obtain ⟨s0, hs0, hs0id⟩ := List.mem_map.mp hidorig
  by_cases hpred : s0.github_user_id = some uid ∧ s0.status = SelectionStatus.selected
      ∧ s0.repository_id = none
  · have hsnap : s0 ∈ promoteSnapshot uid st :=
      List.mem_filter.mpr ⟨hs0, by simpa using hpred⟩
    have hsnapids : ((promoteSnapshot uid st).map (fun s => s.id)).Nodup :=
      hsids.sublist ((List.filter_sublist _).map _)
    have hexx : ∀ s ∈ promoteSnapshot uid st, s.id ∈ st.sels.map (fun x => x.id) :=
      fun s hs => List.mem_map_of_mem _ (List.mem_filter.mp hs).1
    obtain ⟨t2, ht2, ht2id, ht2status, _⟩ :=
      promoteLoop_processes userId (promoteSnapshot uid st) st hsids hsnapids hexx s0 hsnap
    have hte : t = t2 :=
      List.inj_on_of_nodup_map hids1 ht ht2 (by rw [ht2id, hs0id])
    simp only [decide_eq_true_eq, hte, ht2status]
    intro hcon
    cases hcon.2.1
  · have hnot : s0.id ∉ (promoteSnapshot uid st).map (fun s => s.id) := by
      intro hcon
      obtain ⟨s1, hs1, hs1id⟩ := List.mem_map.mp hcon
      have hs1mem := (List.mem_filter.mp hs1).1
      have hs1pred := (List.mem_filter.mp hs1).2
      have hse : s1 = s0 := List.inj_on_of_nodup_map hsids hs1mem hs0 hs1id
      apply hpred
      rw [← hse]
      simpa using hs1pred
    have hs0in : s0 ∈ (promote userId uid st).1.sels :=
      promoteLoop_preserves_row userId _ st s0 hs0 hnot
    have hte : t = s0 :=
      List.inj_on_of_nodup_map hids1 ht hs0in hs0id.symm
    rw [hte]
    simpa using hpred

/-- C4: Selection Promotion is idempotent and exactly-once.  Every
selection in the account's `selected`-and-unlinked snapshot ends the run
`synced` and linked to a repository that exists (uniquely, by id) in the
final table; the repository ids stay unique; after the run no selection of
the account is `selected`-and-unlinked any more, so running the promotion
again returns the state unchanged with `synced_count = 0`; and for a
candidate whose `(url, owner)` already matches existing repositories, no
additional repository is created. -/
theorem c4_promotion_idempotent_exactly_once (userId uid : Nat) (st : PromoState)
    (hsids : (st.sels.map (fun s => s.id)).Nodup)
    (hrids : (st.repos.map (fun r => r.id)).Nodup)
    (hrfresh : ∀ r ∈ st.repos, r.id < st.nextRepoId) :
    (∀ sel ∈ promoteSnapshot uid st,
      ∃ t ∈ (promote userId uid st).1.sels,
        t.id = sel.id ∧ t.status = SelectionStatus.synced ∧
        ∃ rid, t.repository_id = some rid
          ∧ rid ∈ ((promote userId uid st).1.repos).map (fun r => r.id)) ∧
    (((promote userId uid st).1.repos).map (fun r => r.id)).Nodup ∧
    promoteSnapshot uid (promote userId uid st).1 = [] ∧
    promote userId uid (promote userId uid st).1 = ((promote userId uid st).1, 0) ∧
    (∀ u, (∃ r ∈ st.repos, r.url = u ∧ r.owner_id = userId) →
      ((promote userId uid st).1.repos).countP
          (fun r => decide (r.url = u ∧ r.owner_id = userId))
        = st.repos.countP (fun r => decide (r.url = u ∧ r.owner_id = userId))) := by
  have hsnapids : ((promoteSnapshot uid st).map (fun s => s.id)).Nodup :=
    hsids.sublist ((List.filter_sublist _).map _)
  have hexx : ∀ s ∈ promoteSnapshot uid st, s.id ∈ st.sels.map (fun x => x.id) :=
    fun s hs => List.mem_map_of_mem _ (List.mem_filter.mp hs).1
  have hempty := promote_snapshot_empty userId uid st hsids
  refine ⟨?_, ?_, hempty, ?_, ?_⟩
  · exact promoteLoop_processes userId (promoteSnapshot uid st) st hsids hsnapids hexx
  · exact (promoteLoop_repos_invariant userId (promoteSnapshot uid st) st hrids hrfresh).1
  · have h4 : promote userId uid (promote userId uid st).1
        = promoteLoop userId (promoteSnapshot uid (promote userId uid st).1)
            (promote userId uid st).1 := rfl
    rw [h4, hempty]
    rfl
  · intro u hex
    exact promoteLoop_url_count userId (promoteSnapshot uid st) st u hex

/-- A selected, unlinked candidate whose url matches no repository yet. -/
def c4sel1 : Selection :=
  { id := 1, github_repo_id := 101, name := "one", full_name := "acme/one",
    description := none, url := "https://github.com/acme/one",
    clone_url := "https://github.com/acme/one.git", default_branch := "main",
    is_private := false, is_fork := false, is_archived := false,
    stargazers_count := 0, watchers_count := 0, forks_count := 0, size := 1,
    language := none, status := .selected, selected_at := some 3,
    repository_id := none, github_user_id := some 1, selected_by_user_id := 7 }

/-- A selected, unlinked candidate whose url already matches `c4repo`. -/
def c4sel2 : Selection :=
  { c4sel1 with
    id := 2
    github_repo_id := 102
    name := "two"
    full_name := "acme/two"
    url := "https://github.com/acme/two"
    clone_url := "https://github.com/acme/two.git" }

/-- A repository already present for `(https://github.com/acme/two, user 7)`. -/
def c4repo : Repository :=
  { id := 1, name := "two", full_name := "acme/two",
    url := "https://github.com/acme/two",
    clone_url := "https://github.com/acme/two.git", external_id := "102",
    description := none, default_branch := "main", is_private := false,
    owner_id := 7, sync_status := "completed", sync_error := none,
    last_synced_at := some 9 }

/-- The concrete promotion state of the C4 witness. -/
def c4st : PromoState :=
  { repos := [c4repo], sels := [c4sel1, c4sel2], nextRepoId := 2, enqueued := [] }

/-- C4 witness: promoting user 7's account 1 over `c4st` processes both
candidates (creating one repository, linking the other to the existing
one — `synced_count = 1`), and a second promotion is a no-op. -/
theorem c4_promotion_witness :
    ((∀ sel ∈ promoteSnapshot 1 c4st,
      ∃ t ∈ (promote 7 1 c4st).1.sels,
        t.id = sel.id ∧ t.status = SelectionStatus.synced ∧
        ∃ rid, t.repository_id = some rid
          ∧ rid ∈ ((promote 7 1 c4st).1.repos).map (fun r => r.id)) ∧
    (((promote 7 1 c4st).1.repos).map (fun r => r.id)).Nodup ∧
    promoteSnapshot 1 (promote 7 1 c4st).1 = [] ∧
    promote 7 1 (promote 7 1 c4st).1 = ((promote 7 1 c4st).1, 0) ∧
    (∀ u, (∃ r ∈ c4st.repos, r.url = u ∧ r.owner_id = 7) →
      ((promote 7 1 c4st).1.repos).countP
          (fun r => decide (r.url = u ∧ r.owner_id = 7))
        = c4st.repos.countP (fun r => decide (r.url = u ∧ r.owner_id = 7)))) ∧
    (promote 7 1 c4st).2 = 1 ∧ (promote 7 1 c4st).1.repos.length = 2 :=
  ⟨c4_promotion_idempotent_exactly_once 7 1 c4st (by decide) (by decide) (by decide),
    by decide, by decide⟩

/-! ### Bulk sync (`bulk_sync_repositories`, tasks.py lines 231-312)

The task validates the user, then queries the repositories whose id is in
the request list and whose owner is the user; if the row count differs from
the request-list length it raises before dispatching anything.  Otherwise it
walks the validated rows in chunks of five, dispatching each chunk's jobs
and then waiting for each with a 300s timeout; a per-job failure or timeout
is recorded as that item's failure and the loop continues with the next
item and the next chunk.  `jobOutcome` abstracts the awaited result of one
repository's `sync_repository` job. -/

/-- The columns of a `repositories` row that bulk sync reads. -/
structure RepoRow where
  id : Nat
  owner_id : Nat
  name : String
  deriving Repr, DecidableEq

/-- The database as bulk sync sees it. -/
structure BulkDB where
  users : List Nat
  repos : List RepoRow
  deriving Repr, DecidableEq

/-- Outcome of awaiting one repository's sync job. -/
inductive ItemOutcome
  | completed
  | failed (error : String)
  deriving Repr, DecidableEq

/-- One entry of the per-item result list. -/
structure ItemResult where
  repository_id : Nat
  name : String
  outcome : ItemOutcome
  deriving Repr, DecidableEq

/-- The try/except around `task.get(timeout=300)`: a failure becomes a
per-item `failed` entry, not an exception. -/
def itemResultFor (jobOutcome : Nat → Except String Unit) (r : RepoRow) : ItemResult :=
  match jobOutcome r.id with
  | .ok _ => ⟨r.id, r.name, .completed⟩
  | .error e => ⟨r.id, r.name, .failed e⟩

/-- The chunked dispatch-and-wait loop with `chunk_size = 5`: five jobs are
dispatched, awaited in order, then the next chunk; outcomes are appended in
repository order. -/
def processChunks (jobOutcome : Nat → Except String Unit) : List RepoRow → List ItemResult
  | [] => []
  | a :: b :: c :: d :: e :: rest =>
    itemResultFor jobOutcome a :: itemResultFor jobOutcome b :: itemResultFor jobOutcome c ::
      itemResultFor jobOutcome d :: itemResultFor jobOutcome e ::
        processChunks jobOutcome rest
  | l => l.map (itemResultFor jobOutcome)

/-- Whether a per-item result records a failure. -/
def isFailedResult (ir : ItemResult) : Bool :=
  match ir.outcome with
  | .completed => false
  | .failed _ => true

/-- The aggregate the task returns. -/
structure BulkSummary where
  total_repos : Nat
  completed_repos : Nat
  failed_repos : Nat
  results : List ItemResult
  deriving Repr, DecidableEq

/-- Observable effect of one bulk-sync call: which repository ids were
handed to `sync_repository.delay`, and the returned summary or the raised
error. -/
structure BulkOutput where
  dispatched : List Nat
  result : Except String BulkSummary
  deriving Repr

/-- Embedding of `bulk_sync_repositories`.  The `completed`/`failed` counters the loop
increments per item equal the counts over the final result list. -/
def bulk_sync_repositories (db : BulkDB) (repository_ids : List Nat) (user_id : Nat)
    (jobOutcome : Nat → Except String Unit) : BulkOutput :=
  if user_id ∈ db.users then
    if (db.repos.filter
        (fun r => repository_ids.contains r.id && r.owner_id == user_id)).length
        = repository_ids.length then
      { dispatched := (db.repos.filter
          (fun r => repository_ids.contains r.id && r.owner_id == user_id)).map
            (fun r => r.id)
        result := .ok
          { total_repos := (db.repos.filter
              (fun r => repository_ids.contains r.id && r.owner_id == user_id)).length
            completed_repos := (processChunks jobOutcome (db.repos.filter
              (fun r => repository_ids.contains r.id && r.owner_id == user_id))).countP
                (fun ir => !(isFailedResult ir))
            failed_repos := (processChunks jobOutcome (db.repos.filter
              (fun r => repository_ids.contains r.id && r.owner_id == user_id))).countP
                isFailedResult
            results := processChunks jobOutcome (db.repos.filter
              (fun r => repository_ids.contains r.id && r.owner_id == user_id)) } }
    else
      { dispatched := []
        result := .error "Some repositories not found or not owned by user" }
  else
    { dispatched := [], result := .error "User not found" }

/-- Chunking five at a time does not change the per-item results: they are
the items in order. -/
theorem processChunks_eq_map (jobOutcome : Nat → Except String Unit) :
    ∀ l, processChunks jobOutcome l = l.map (itemResultFor jobOutcome) := by
  have key : ∀ n l, l.length ≤ n →
      processChunks jobOutcome l = l.map (itemResultFor jobOutcome) := by
    intro n
    induction n with
    | zero =>
      intro l hl
      cases l with
      | nil => rfl
      | cons a t => simp at hl
    | succ m ih =>
      intro l hl
      match l with
      | [] => rfl
      | [a] => rfl
      | [a, b] => rfl
      | [a, b, c] => rfl
      | [a, b, c, d] => rfl
      | a :: b :: c :: d :: e :: rest =>
        show _ :: _ :: _ :: _ :: _ :: processChunks jobOutcome rest = _
        rw [ih rest (by simp at hl ⊢; omega)]
        rfl
  exact fun l => key l.length l (Nat.le_refl _)

/-- Whether the awaited job of a repository row fails. -/
def rowJobFails (jobOutcome : Nat → Except String Unit) (r : RepoRow) : Bool :=
  match jobOutcome r.id with
  | .ok _ => false
  | .error _ => true

theorem isFailedResult_itemResultFor (jobOutcome : Nat → Except String Unit) (r : RepoRow) :
    isFailedResult (itemResultFor jobOutcome r) = rowJobFails jobOutcome r := by
  unfold isFailedResult itemResultFor rowJobFails
  cases jobOutcome r.id <;> rfl

/-- C8: a bulk sync whose ownership validation passes returns normally with
one result entry per validated repository, in repository order; when exactly
one repository's job always fails, the summary records exactly 1 failure
and N-1 successes — the failure aborts neither its chunk siblings nor later
chunks. -/
theorem c8_bulk_sync_isolates_failures (db : BulkDB) (repository_ids : List Nat)
    (user_id : Nat) (jobOutcome : Nat → Except String Unit)
    (huser : user_id ∈ db.users)
    (hvalid : (db.repos.filter
      (fun r => repository_ids.contains r.id && r.owner_id == user_id)).length
        = repository_ids.length)
    (hfail : (db.repos.filter
      (fun r => repository_ids.contains r.id && r.owner_id == user_id)).countP
        (rowJobFails jobOutcome) = 1) :
    (bulk_sync_repositories db repository_ids user_id jobOutcome).result
      = .ok
        { total_repos := repository_ids.length
          completed_repos := repository_ids.length - 1
          failed_repos := 1
          results := (db.repos.filter
            (fun r => repository_ids.contains r.id && r.owner_id == user_id)).map
              (itemResultFor jobOutcome) } ∧
    ((db.repos.filter
      (fun r => repository_ids.contains r.id && r.owner_id == user_id)).map
        (itemResultFor jobOutcome)).length = repository_ids.length := by
  have hres := processChunks_eq_map jobOutcome
    (db.repos.filter (fun r => repository_ids.contains r.id && r.owner_id == user_id))
  have hcf : ((db.repos.filter
      (fun r => repository_ids.contains r.id && r.owner_id == user_id)).map
        (itemResultFor jobOutcome)).countP isFailedResult = 1 := by
    rw [List.countP_map]
    have hpt : ∀ r ∈ db.repos.filter
        (fun r => repository_ids.contains r.id && r.owner_id == user_id),
        (isFailedResult ∘ itemResultFor jobOutcome) r = true
          ↔ rowJobFails jobOutcome r = true := by
      intro r _
      rw [Function.comp_apply, isFailedResult_itemResultFor]
    rw [List.countP_congr hpt]
    exact hfail
  have hcc : ((db.repos.filter
      (fun r => repository_ids.contains r.id && r.owner_id == user_id)).map
        (itemResultFor jobOutcome)).countP (fun ir => !(isFailedResult ir))
      = repository_ids.length - 1 := by
    have hsum := List.length_eq_countP_add_countP isFailedResult
      ((db.repos.filter
        (fun r => repository_ids.contains r.id && r.owner_id == user_id)).map
          (itemResultFor jobOutcome))
    have hlen2 : ((db.repos.filter
        (fun r => repository_ids.contains r.id && r.owner_id == user_id)).map
          (itemResultFor jobOutcome)).length = repository_ids.length := by
      rw [List.length_map, hvalid]
    have hbr : ((db.repos.filter
        (fun r => repository_ids.contains r.id && r.owner_id == user_id)).map
          (itemResultFor jobOutcome)).countP (fun a => ¬isFailedResult a)
        = ((db.repos.filter
          (fun r => repository_ids.contains r.id && r.owner_id == user_id)).map
            (itemResultFor jobOutcome)).countP (fun ir => !(isFailedResult ir)) := by
      apply List.countP_congr
      intro a _
      cases h : isFailedResult a <;> simp [h]
    omega
  constructor
  · unfold bulk_sync_repositories
    rw [if_pos huser, if_pos hvalid, hres, hcf, hcc, hvalid]
  · rw [List.length_map, hvalid]

/-- The repositories of the C8/C10 witnesses, owned by user 7. -/
def c8repos : List RepoRow :=
  [⟨1, 7, "one"⟩, ⟨2, 7, "two"⟩, ⟨3, 7, "three"⟩]

/-- The database of the C8/C10 witnesses. -/
def c8db : BulkDB := { users := [7], repos := c8repos }

/-- A job outcome where exactly repository 2's sync always fails. -/
def c8outcome : Nat → Except String Unit := fun i =>
  if i = 2 then .error "boom" else .ok ()

/-- C8 witness: bulk-syncing repositories 1-3 of user 7 where repository
2's job always fails returns 3 per-item results with exactly 1 failure and
2 successes. -/
theorem c8_bulk_sync_witness :
    (bulk_sync_repositories c8db [1, 2, 3] 7 c8outcome).result
      = .ok
        { total_repos := ([1, 2, 3] : List Nat).length
          completed_repos := ([1, 2, 3] : List Nat).length - 1
          failed_repos := 1
          results := (c8db.repos.filter
            (fun r => ([1, 2, 3] : List Nat).contains r.id && r.owner_id == 7)).map
              (itemResultFor c8outcome) } ∧
    ((c8db.repos.filter
      (fun r => ([1, 2, 3] : List Nat).contains r.id && r.owner_id == 7)).map
        (itemResultFor c8outcome)).length = ([1, 2, 3] : List Nat).length :=
  c8_bulk_sync_isolates_failures c8db [1, 2, 3] 7 c8outcome
    (by decide) (by decide) (by decide)

/-- C10: the ownership validation counts distinct matching rows, so a
request list containing a duplicate id is rejected as a whole — error
raised, no job dispatched — even when every listed repository exists and is
owned by the requester. -/
theorem c10_bulk_sync_rejects_duplicate_ids (db : BulkDB) (repository_ids : List Nat)
    (user_id : Nat) (jobOutcome : Nat → Except String Unit)
    (huser : user_id ∈ db.users)
    (hrowids : (db.repos.map (fun r => r.id)).Nodup)
    (hdup : ¬repository_ids.Nodup)
    (howned : ∀ i ∈ repository_ids, ∃ r ∈ db.repos, r.id = i ∧ r.owner_id = user_id) :
    (bulk_sync_repositories db repository_ids user_id jobOutcome).dispatched = [] ∧
    (bulk_sync_repositories db repository_ids user_id jobOutcome).result
      = .error "Some repositories not found or not owned by user" := by
  have hlt : (db.repos.filter
      (fun r => repository_ids.contains r.id && r.owner_id == user_id)).length
      < repository_ids.length := by
    have hsub : List.Sublist (db.repos.filter
        (fun r => repository_ids.contains r.id && r.owner_id == user_id)) db.repos :=
      List.filter_sublist _
    have hfnodup : ((db.repos.filter
        (fun r => repository_ids.contains r.id && r.owner_id == user_id)).map
          (fun r => r.id)).Nodup :=
      hrowids.sublist (hsub.map (fun r => r.id))
    have hsubset : ((db.repos.filter
        (fun r => repository_ids.contains r.id && r.owner_id == user_id)).map
          (fun r => r.id)) ⊆ repository_ids.dedup := by
      intro i hi
      obtain ⟨r, hr, rfl⟩ := List.mem_map.mp hi
      have hrf := List.mem_filter.mp hr
      have : repository_ids.contains r.id = true := by
        have := hrf.2
        simp only [Bool.and_eq_true] at this
        exact this.1
      rw [List.mem_dedup]
      simpa using this
    have hsp : List.Subperm ((db.repos.filter
        (fun r => repository_ids.contains r.id && r.owner_id == user_id)).map
          (fun r => r.id)) repository_ids.dedup :=
      List.Nodup.subperm hfnodup hsubset
    have hle : ((db.repos.filter
        (fun r => repository_ids.contains r.id && r.owner_id == user_id)).map
          (fun r => r.id)).length ≤ repository_ids.dedup.length :=
      hsp.length_le
    have hdlt : repository_ids.dedup.length < repository_ids.length := by
      have hds : List.Sublist repository_ids.dedup repository_ids := List.dedup_sublist _
      have hdle : repository_ids.dedup.length ≤ repository_ids.length := hds.length_le
      rcases Nat.lt_or_ge repository_ids.dedup.length repository_ids.length with h | h
      · exact h
      · exfalso
        have heq : repository_ids.dedup = repository_ids :=
          hds.eq_of_length (by omega)
        exact hdup (heq ▸ repository_ids.nodup_dedup)
    rw [List.length_map] at hle
    omega
  have hne : ¬((db.repos.filter
      (fun r => repository_ids.contains r.id && r.owner_id == user_id)).length
        = repository_ids.length) := by omega
  constructor <;>
    · unfold bulk_sync_repositories
      rw [if_pos huser, if_neg hne]

/-- C10 witness: the request `[1, 1]` on the witness database is rejected
with no dispatch even though repository 1 exists and user 7 owns it. -/
theorem c10_bulk_sync_witness :
    (bulk_sync_repositories c8db [1, 1] 7 c8outcome).dispatched = [] ∧
    (bulk_sync_repositories c8db [1, 1] 7 c8outcome).result
      = .error "Some repositories not found or not owned by user" :=
  c10_bulk_sync_rejects_duplicate_ids c8db [1, 1] 7 c8outcome
    (by decide) (by decide) (by decide) (by decide)

end GitAnalyzer
